import Mathlib

/-! # IUseArchBtw: the lexer and the tape-machine executor of `main.cpp`

A shallow embedding of `lex`, `advance`, `makeToken` and `parse` from
`src/interperter/src/main.cpp`, followed by theorems about them.

Conventions of the embedding.

* `unsigned int` values are natural numbers below `2 ^ 32`; every `++` and
  `--` on them is taken modulo `2 ^ 32`.
* `int` values are integers; `++` and `--` on them go through `wrapInt`, and
  a comparison of an `int` with an `unsigned int` first converts the `int`
  with `toUnsigned`, as the usual arithmetic conversions of C++ do.
* A `char` of the source text is its byte value, a natural number; `0` is the
  end-of-input sentinel of `advance`.
* Every `while` loop takes a fuel argument and yields `none` when the fuel runs
  out, so that a loop that never ends is a loop that yields `none` for every
  amount of fuel.
-/

set_option autoImplicit false

namespace IUseArchBtw

/-! ## Machine integers -/

/-- Number of values of an `unsigned int` (32 bits). -/
def UINT_SIZE : Nat := 4294967296

/-- Conversion of an `int` to `unsigned int`: the value modulo `2 ^ 32`. -/
def toUnsigned (x : Int) : Nat := (x % 4294967296).toNat

/-- Two's-complement wrap of an integer into the range of `int`. -/
def wrapInt (x : Int) : Int := (x + 2147483648) % 4294967296 - 2147483648

/-- The value `-1` converted to `unsigned int`, as in `++i == -1`. -/
def MINUS_ONE : Nat := 4294967295

/-- The least value of an `int`. -/
def INT_MIN : Int := -2147483648

/-- The greatest value of an `int`. -/
def INT_MAX : Int := 2147483647

/-! ## Tokens -/

/-- The enumeration `TokenType`.  `INVALID` stands for a value of the
enumeration that is none of the eight enumerators: the value that the final
`else` of `parse` traps. -/
inductive TokenType where
  | INPUT
  | OUTPUT
  | SUB_CELL
  | ADD_CELL
  | SUB_PTR
  | ADD_PTR
  | BEG_LOOP
  | END_LOOP
  | INVALID
  deriving DecidableEq, Repr

/-- The structure `Token`. -/
structure Token where
  type : TokenType
  deriving DecidableEq, Repr

/-! ## The executor `parse` -/

def CELLS_BEGIN : Nat := 0
def CELLS_END : Nat := 30000
def MIN_CELL_SIZE : Nat := 0
def MAX_CELL_SIZE : Nat := 256

/-- Number of elements of `std::vector<int> memory(CELLS_END, 0)`. -/
def MEMORY_SIZE : Nat := CELLS_END

/-- The variables of `parse` together with the two standard streams.
`memory k` is the element `k` of the vector for `k < MEMORY_SIZE`; the vector
is never resized.  `input` lists the decimal integers that standard input
still holds; `output` lists the bytes written so far, oldest first. -/
structure State where
  memory : Nat → Int
  ptr : Nat
  i : Nat
  input : List Int
  output : List Nat

/-- The state at the entry of the step loop of `parse`. -/
def initState (input : List Int) : State :=
  { memory := fun _ => 0, ptr := MIN_CELL_SIZE, i := 0, input := input, output := [] }

/-- Assignment `memory[p] = v`. -/
def setCell (memory : Nat → Int) (p : Nat) (v : Int) : Nat → Int :=
  fun k => if k = p then v else memory k

/-- The ways in which `parse` stops. -/
inductive Outcome where
  /-- The step loop ended (`i >= tokens.size()`): `parse` returns. -/
  | normal
  /-- The diagnostic `ERR: Loop went out of scope.` and `exit(1)`. -/
  | errLoopScope
  /-- The diagnostic `ERR: Invalid Token` and `exit(1)`. -/
  | errInvalidToken
  /-- The call `tokens.at(i)` threw `std::out_of_range`, which nothing catches. -/
  | outOfRange
  /-- The access `memory[ptr]` with `ptr` outside the vector: undefined behaviour. -/
  | badAccess
  deriving DecidableEq, Repr

/-- Result of a bracket scan. -/
inductive Scan where
  /-- The depth counter reached 0 with the instruction index at this value. -/
  | found (i : Nat)
  /-- The scan stopped the program. -/
  | stop (o : Outcome) (i : Nat)
  /-- The fuel ran out. -/
  | timeout
  deriving DecidableEq, Repr

/-- The loop `while(open)` of the `BEG_LOOP` branch; `openCount` is the
variable `open`. -/
def scanForward (tokens : List Token) : Nat → Nat → Int → Scan
  | 0, _, _ => Scan.timeout
  | fuel + 1, i, openCount =>
    if openCount ≠ 0 then
      let i := (i + 1) % UINT_SIZE
      if i = MINUS_ONE then Scan.stop Outcome.errLoopScope i
      else
        match tokens.get? i with
        | none => Scan.stop Outcome.outOfRange i
        | some t =>
          let openCount :=
            if t.type = TokenType.BEG_LOOP then wrapInt (openCount + 1) else openCount
          let openCount :=
            if t.type = TokenType.END_LOOP then wrapInt (openCount - 1) else openCount
          scanForward tokens fuel i openCount
    else Scan.found i

/-- The loop `while(close)` of the `END_LOOP` branch. -/
def scanBackward (tokens : List Token) : Nat → Nat → Int → Scan
  | 0, _, _ => Scan.timeout
  | fuel + 1, i, close =>
    if close ≠ 0 then
      let i := (i + UINT_SIZE - 1) % UINT_SIZE
      if i = MINUS_ONE then Scan.stop Outcome.errLoopScope i
      else
        match tokens.get? i with
        | none => Scan.stop Outcome.outOfRange i
        | some t =>
          let close :=
            if t.type = TokenType.END_LOOP then wrapInt (close + 1) else close
          let close :=
            if t.type = TokenType.BEG_LOOP then wrapInt (close - 1) else close
          scanBackward tokens fuel i close
    else Scan.found i

/-- Result of the dispatch on one token (the body of the step loop up to, and
not including, the final `i++`). -/
inductive Step where
  | next (s : State)
  | stop (o : Outcome) (s : State)
  | timeout

/-- The statement `std::cin >> memory[ptr]`.  The next integer of the input is
stored.  An integer outside the range of `int` is stored as the nearest bound
of the range and the stream fails, so that later extractions deliver nothing.
When the input is exhausted the extraction fails and the cell keeps its
value. -/
def readCell (s : State) : State :=
  match s.input with
  | [] => s
  | n :: rest =>
    if n < INT_MIN then { s with memory := setCell s.memory s.ptr INT_MIN, input := [] }
    else if n > INT_MAX then { s with memory := setCell s.memory s.ptr INT_MAX, input := [] }
    else { s with memory := setCell s.memory s.ptr n, input := rest }

/-- The `if`/`else if` chain of the step loop on the token `token`.  The
argument `fuel` bounds the bracket scans. -/
def dispatch (tokens : List Token) (fuel : Nat) (token : Token) (s : State) : Step :=
  if token.type = TokenType.INPUT then
    if s.ptr < MEMORY_SIZE then
      let s := readCell s
      if toUnsigned (s.memory s.ptr) < MIN_CELL_SIZE then
        Step.next { s with memory := setCell s.memory s.ptr MAX_CELL_SIZE }
      else if toUnsigned (s.memory s.ptr) > MAX_CELL_SIZE then
        Step.next { s with memory := setCell s.memory s.ptr MIN_CELL_SIZE }
      else Step.next s
    else Step.stop Outcome.badAccess s
  else if token.type = TokenType.OUTPUT then
    if s.ptr < MEMORY_SIZE then
      Step.next { s with output := s.output ++ [(s.memory s.ptr % 256).toNat] }
    else Step.stop Outcome.badAccess s
  else if token.type = TokenType.SUB_CELL then
    if s.ptr < MEMORY_SIZE then
      let s := { s with memory := setCell s.memory s.ptr (wrapInt (s.memory s.ptr - 1)) }
      if toUnsigned (s.memory s.ptr) < MIN_CELL_SIZE then
        Step.next { s with memory := setCell s.memory s.ptr MAX_CELL_SIZE }
      else Step.next s
    else Step.stop Outcome.badAccess s
  else if token.type = TokenType.ADD_CELL then
    if s.ptr < MEMORY_SIZE then
      let s := { s with memory := setCell s.memory s.ptr (wrapInt (s.memory s.ptr + 1)) }
      if toUnsigned (s.memory s.ptr) > MAX_CELL_SIZE then
        Step.next { s with memory := setCell s.memory s.ptr MIN_CELL_SIZE }
      else Step.next s
    else Step.stop Outcome.badAccess s
  else if token.type = TokenType.SUB_PTR then
    let s := { s with ptr := (s.ptr + UINT_SIZE - 1) % UINT_SIZE }
    if s.ptr < CELLS_BEGIN then Step.next { s with ptr := CELLS_END }
    else Step.next s
  else if token.type = TokenType.ADD_PTR then
    let s := { s with ptr := (s.ptr + 1) % UINT_SIZE }
    if s.ptr > CELLS_END then Step.next { s with ptr := CELLS_BEGIN }
    else Step.next s
  else if token.type = TokenType.BEG_LOOP then
    if s.ptr < MEMORY_SIZE then
      if s.memory s.ptr = 0 then
        match scanForward tokens fuel s.i 1 with
        | Scan.found i => Step.next { s with i := i }
        | Scan.stop o i => Step.stop o { s with i := i }
        | Scan.timeout => Step.timeout
      else Step.next s
    else Step.stop Outcome.badAccess s
  else if token.type = TokenType.END_LOOP then
    if s.ptr < MEMORY_SIZE then
      if s.memory s.ptr ≠ 0 then
        match scanBackward tokens fuel s.i 1 with
        | Scan.found i => Step.next { s with i := i }
        | Scan.stop o i => Step.stop o { s with i := i }
        | Scan.timeout => Step.timeout
      else Step.next s
    else Step.stop Outcome.badAccess s
  else Step.stop Outcome.errInvalidToken s

/-- One turn of the step loop, entered with `i < tokens.size()`: fetch
`tokens.at(i)`, dispatch, then `i++`. -/
def step (tokens : List Token) (fuel : Nat) (s : State) : Step :=
  match tokens.get? s.i with
  | none => Step.stop Outcome.outOfRange s
  | some token =>
    match dispatch tokens fuel token s with
    | Step.next s => Step.next { s with i := (s.i + 1) % UINT_SIZE }
    | r => r

/-- The step loop `while(i < tokens.size())` of `parse`, from the state `s`.
The result is `none` when the fuel runs out before the program stops. -/
def runFrom (tokens : List Token) : Nat → State → Option (Outcome × State)
  | 0, _ => none
  | fuel + 1, s =>
    if s.i < tokens.length then
      match step tokens fuel s with
      | Step.next s => runFrom tokens fuel s
      | Step.stop o s => some (o, s)
      | Step.timeout => none
    else some (Outcome.normal, s)

/-- The function `parse`: the step loop from the initial state. -/
def parse (tokens : List Token) (input : List Int) (fuel : Nat) : Option (Outcome × State) :=
  runFrom tokens fuel (initState input)

/-! ## The lexer `lex` -/

/-- The bytes of an ASCII text. -/
def bytes (s : String) : List Nat := s.toList.map Char.toNat

/-- The structure `AdvanceResult`: `position` is an `unsigned int`,
`currentChar` a `char`. -/
structure AdvanceResult where
  position : Nat
  currentChar : Nat
  deriving DecidableEq, Repr

/-- The function `advance`. -/
def advance (result : AdvanceResult) (src : List Nat) : AdvanceResult :=
  let position := (result.position + 1) % UINT_SIZE
  if position < src.length then
    { position := position, currentChar := src.getD position 0 }
  else
    { position := position, currentChar := 0 }

/-- The library function `isalpha` in the "C" locale: the ASCII letters. -/
def isalpha (c : Nat) : Prop := (65 ≤ c ∧ c ≤ 90) ∨ (97 ≤ c ∧ c ≤ 122)

instance : DecidablePred isalpha := fun c =>
  inferInstanceAs (Decidable ((65 ≤ c ∧ c ≤ 90) ∨ (97 ≤ c ∧ c ≤ 122)))

/-- The accumulation loop `while(result->currentChar != 0 && isalpha(...))` of
`makeToken`; yields the buffer `tokenStr` and the scan state after the loop. -/
def accumulate (src : List Nat) :
    Nat → AdvanceResult → List Nat → Option (List Nat × AdvanceResult)
  | 0, _, _ => none
  | fuel + 1, result, tokenStr =>
    if result.currentChar ≠ 0 ∧ isalpha result.currentChar then
      accumulate src fuel (advance result src) (tokenStr ++ [result.currentChar])
    else some (tokenStr, result)

/-- The keyword chain of `makeToken`.  The local `type` is declared without an
initial value and no branch of the chain assigns it for an unknown word;
`uninit` is the value it then holds. -/
def keyword (uninit : TokenType) (tokenStr : List Nat) : TokenType :=
  if tokenStr = bytes "i" then TokenType.INPUT
  else if tokenStr = bytes "btw" then TokenType.OUTPUT
  else if tokenStr = bytes "not" then TokenType.SUB_CELL
  else if tokenStr = bytes "use" then TokenType.ADD_CELL
  else if tokenStr = bytes "notarch" then TokenType.SUB_PTR
  else if tokenStr = bytes "arch" then TokenType.ADD_PTR
  else uninit

/-- The function `makeToken`: the token and the scan state it leaves. -/
def makeToken (uninit : TokenType) (fuel : Nat) (result : AdvanceResult) (src : List Nat) :
    Option (Token × AdvanceResult) :=
  match accumulate src fuel result [] with
  | none => none
  | some (tokenStr, result) => some ({ type := keyword uninit tokenStr }, result)

/-- The loop `while(result.currentChar != 0)` of `lex`.  The chain of the loop
body has no final `else`: on a character of no branch the body does nothing and
the loop tests the same character again. -/
def lexLoop (uninit : TokenType) (src : List Nat) :
    Nat → AdvanceResult → List Token → Option (List Token)
  | 0, _, _ => none
  | fuel + 1, result, tokens =>
    if result.currentChar ≠ 0 then
      if result.currentChar = 32 ∨ result.currentChar = 9 ∨ result.currentChar = 10
          ∨ result.currentChar = 13 then
        lexLoop uninit src fuel (advance result src) tokens
      else if isalpha result.currentChar then
        match makeToken uninit fuel result src with
        | none => none
        | some (token, result) => lexLoop uninit src fuel result (tokens ++ [token])
      else if result.currentChar = 91 then
        lexLoop uninit src fuel (advance result src) (tokens ++ [{ type := TokenType.BEG_LOOP }])
      else if result.currentChar = 93 then
        lexLoop uninit src fuel (advance result src) (tokens ++ [{ type := TokenType.END_LOOP }])
      else lexLoop uninit src fuel result tokens
    else some tokens

/-- The function `lex`.  The result is `none` when the fuel runs out before
the scan loop ends. -/
def lex (uninit : TokenType) (src : List Nat) (fuel : Nat) : Option (List Token) :=
  let result : AdvanceResult := { position := MINUS_ONE, currentChar := 0 }
  let result := advance result src
  lexLoop uninit src fuel result []

/-! ## Surface syntax and bracket nesting, as the specification words them -/

/-- The surface form of a token: its keyword or bracket character. -/
def surface : TokenType → List Nat
  | TokenType.INPUT => bytes "i"
  | TokenType.OUTPUT => bytes "btw"
  | TokenType.SUB_CELL => bytes "not"
  | TokenType.ADD_CELL => bytes "use"
  | TokenType.SUB_PTR => bytes "notarch"
  | TokenType.ADD_PTR => bytes "arch"
  | TokenType.BEG_LOOP => bytes "["
  | TokenType.END_LOOP => bytes "]"
  | TokenType.INVALID => []

/-- A token sequence rendered as source text: the surface forms joined with
single spaces. -/
def render : List Token → List Nat
  | [] => []
  | [t] => surface t.type
  | t :: t2 :: ts => surface t.type ++ 32 :: render (t2 :: ts)

/-- Balanced nesting of `BEG_LOOP` and `END_LOOP` in a token sequence. -/
inductive Balanced : List Token → Prop where
  | nil : Balanced []
  | plain (t : Token) (l : List Token) :
      t.type ≠ TokenType.BEG_LOOP → t.type ≠ TokenType.END_LOOP → Balanced l →
      Balanced (t :: l)
  | loop (body rest : List Token) :
      Balanced body → Balanced rest →
      Balanced ({ type := TokenType.BEG_LOOP } :: body ++ { type := TokenType.END_LOOP } :: rest)

/-- The `BEG_LOOP` at index `p` and the `END_LOOP` at index `q` match: they
enclose a balanced segment. -/
def Matches (tokens : List Token) (p q : Nat) : Prop :=
  ∃ pre body post,
    tokens = pre ++ { type := TokenType.BEG_LOOP } :: body ++ { type := TokenType.END_LOOP } :: post
      ∧ pre.length = p ∧ p + body.length + 1 = q ∧ Balanced body

/-! ## Auxiliary definitions of the proofs -/

/-- The scan state of `lex` with the look-ahead at position `p` of `src`: the
character there, or the sentinel `0` past the end. -/
def scanAt (src : List Nat) (p : Nat) : AdvanceResult :=
  { position := p, currentChar := src.getD p 0 }

/-! ## The lexer as a function of the text -/

/-- The leading run of letters of a text. -/
def letters (l : List Nat) : List Nat := l.takeWhile (fun c => decide (isalpha c))

/-- A text without its leading run of letters. -/
def afterLetters (l : List Nat) : List Nat := l.dropWhile (fun c => decide (isalpha c))

/-- The token sequence of a text, by recursion on the text: what the scan loop
of `lex` computes when it ends, and `none` when it meets a non-zero character
of no branch. -/
def lexList (uninit : TokenType) : List Nat → Option (List Token)
  | [] => some []
  | c :: cs =>
    if c = 0 then some []
    else if c = 32 ∨ c = 9 ∨ c = 10 ∨ c = 13 then lexList uninit cs
    else if isalpha c then
      (lexList uninit (afterLetters cs)).map
        (fun ts => { type := keyword uninit (c :: letters cs) } :: ts)
    else if c = 91 then (lexList uninit cs).map (fun ts => { type := TokenType.BEG_LOOP } :: ts)
    else if c = 93 then (lexList uninit cs).map (fun ts => { type := TokenType.END_LOOP } :: ts)
    else none
termination_by l => l.length
decreasing_by
  all_goals simp_wf
  · have := (List.dropWhile_sublist (fun c => decide (isalpha c)) (l := cs)).length_le
    unfold afterLetters
    omega

/-! ## What a bracket scan crosses -/

/-- The text `l` closes `d` open brackets: it is `d` pieces, each a balanced
segment followed by an `END_LOOP`. -/
inductive Closes : Nat → List Token → Prop where
  | zero : Closes 0 []
  | succ (d : Nat) (b l : List Token) :
      Balanced b → Closes d l → Closes (d + 1) (b ++ { type := TokenType.END_LOOP } :: l)

/-- The text `l` opens `d` brackets: it is `d` pieces, each a `BEG_LOOP`
followed by a balanced segment. -/
inductive Opens : Nat → List Token → Prop where
  | zero : Opens 0 []
  | succ (d : Nat) (l b : List Token) :
      Opens d l → Balanced b → Opens (d + 1) (l ++ { type := TokenType.BEG_LOOP } :: b)

/-! ## The programs and states of the scenarios -/

/-- The state of `parse` in which cell 0 holds `v` and every other cell 0, the
cursor is 0, the instruction index is `j`, nothing has been read from `input`
and nothing written. -/
def cellState (input : List Int) (v : Int) (j : Nat) : State :=
  { memory := setCell (fun _ => 0) 0 v, ptr := 0, i := j, input := input, output := [] }

/-- The program of the loop-zeroing scenario: `n` tokens `ADD_CELL`, then
`BEG_LOOP`, `SUB_CELL`, `END_LOOP` (source `use` ... `use [ not ]`). -/
def zeroingProgram (n : Nat) : List Token :=
  List.replicate n { type := TokenType.ADD_CELL }
    ++ [{ type := TokenType.BEG_LOOP }, { type := TokenType.SUB_CELL },
        { type := TokenType.END_LOOP }]

/-- The program of the counting scenario: `n` tokens `ADD_CELL`, then `OUTPUT`
(source `use` ... `use btw`). -/
def countingProgram (n : Nat) : List Token :=
  List.replicate n { type := TokenType.ADD_CELL } ++ [{ type := TokenType.OUTPUT }]

/-! ## The characters of the surface syntax -/

/-- A character for which the scan loop of `lex` has a branch: whitespace, an
ASCII letter, `[` or `]`. -/
def hasBranch (c : Nat) : Prop :=
  (c = 32 ∨ c = 9 ∨ c = 10 ∨ c = 13) ∨ isalpha c ∨ c = 91 ∨ c = 93

instance : DecidablePred hasBranch := fun c =>
  inferInstanceAs (Decidable ((c = 32 ∨ c = 9 ∨ c = 10 ∨ c = 13) ∨ isalpha c ∨ c = 91 ∨ c = 93))

/-! # Theorems -/

open TokenType

/-! ## Machine integers: basic facts -/

theorem wrapInt_of_range (x : Int) (h1 : -2147483648 ≤ x) (h2 : x < 2147483648) :
    wrapInt x = x := by
  unfold wrapInt; omega

theorem toUnsigned_of_nonneg (x : Int) (h1 : 0 ≤ x) (h2 : x < 4294967296) :
    toUnsigned x = x.toNat := by
  unfold toUnsigned; rw [Int.emod_eq_of_lt h1 h2]

theorem setCell_same (m : Nat → Int) (p : Nat) (v : Int) : setCell m p v p = v := by
  simp [setCell]

theorem setCell_other (m : Nat → Int) (p k : Nat) (v : Int) (h : k ≠ p) :
    setCell m p v k = m k := by
  simp [setCell, h]

theorem setCell_setCell (m : Nat → Int) (p : Nat) (v w : Int) :
    setCell (setCell m p v) p w = setCell m p w := by
  funext k; simp only [setCell]; split <;> rfl

/-- Claim C7. `ADD_CELL` on a cell holding `v` in `[0, 256]` leaves it holding
`v + 1` when `v < 256` and `0` when `v = 256`; nothing else changes. -/
theorem add_cell_wraps_upward (tokens : List Token) (fuel : Nat) (s : State)
    (hptr : s.ptr < MEMORY_SIZE) (h0 : 0 ≤ s.memory s.ptr) (h256 : s.memory s.ptr ≤ 256) :
    dispatch tokens fuel { type := ADD_CELL } s =
      Step.next { s with
        memory := setCell s.memory s.ptr (if s.memory s.ptr < 256 then s.memory s.ptr + 1 else 0) } := by
  have hw : wrapInt (s.memory s.ptr + 1) = s.memory s.ptr + 1 :=
    wrapInt_of_range _ (by omega) (by omega)
  have hu : toUnsigned (s.memory s.ptr + 1) = (s.memory s.ptr + 1).toNat :=
    toUnsigned_of_nonneg _ (by omega) (by omega)
  simp only [dispatch, reduceCtorEq, if_false, if_true, hptr, setCell_same, hw, hu,
    MAX_CELL_SIZE, MIN_CELL_SIZE, setCell_setCell]
  by_cases hv : s.memory s.ptr < 256
  · have : ¬ ((s.memory s.ptr + 1).toNat > 256) := by omega
    simp [hv, this]
  · have : (s.memory s.ptr + 1).toNat > 256 := by omega
    simp [hv, this]

/-- Claim C7 (an instance): from the cell value 256 `ADD_CELL` yields 0. -/
theorem add_cell_wraps_upward_witness :
    dispatch [] 0 { type := ADD_CELL } { initState [] with memory := fun _ => 256 } =
      Step.next { initState [] with memory := setCell (fun _ => 256) 0 0 } :=
  add_cell_wraps_upward [] 0 { initState [] with memory := fun _ => 256 }
    (by decide) (by decide) (by decide)

/-- Claim C8. `ADD_PTR` moves a cursor `c` in `[0, 30000]` to `c + 1` when
`c < 30000` and to `0` when `c = 30000`; nothing else changes. -/
theorem add_ptr_wraps_upward (tokens : List Token) (fuel : Nat) (s : State)
    (hc : s.ptr ≤ 30000) :
    dispatch tokens fuel { type := ADD_PTR } s =
      Step.next { s with ptr := if s.ptr < 30000 then s.ptr + 1 else 0 } := by
  have hm : (s.ptr + 1) % UINT_SIZE = s.ptr + 1 := by
    unfold UINT_SIZE; omega
  simp only [dispatch, reduceCtorEq, if_false, if_true, hm, CELLS_END, CELLS_BEGIN]
  by_cases hv : s.ptr < 30000
  · have : ¬ (s.ptr + 1 > 30000) := by omega
    simp [hv, this]
  · have : s.ptr + 1 > 30000 := by omega
    simp [hv, this]

/-- Claim C8 (an instance): from the cursor 30000 `ADD_PTR` yields the cursor 0. -/
theorem add_ptr_wraps_upward_witness :
    dispatch [] 0 { type := ADD_PTR } { initState [] with ptr := 30000 } =
      Step.next { initState [] with ptr := 0 } :=
  add_ptr_wraps_upward [] 0 { initState [] with ptr := 30000 } (by decide)

/-- Claim C1 (what the code does). The one-token program `not`, run from the
initial state, ends normally with the cell 0 holding `-1`, outside `[0, 256]`;
the one-token program `notarch` ends normally with the cursor at
`4294967295`, outside `[0, 30000]`. -/
theorem invariant_broken_by_sub :
    (∃ s, parse [{ type := SUB_CELL }] [] 2 = some (Outcome.normal, s) ∧ s.memory 0 = -1)
    ∧ (∃ s, parse [{ type := SUB_PTR }] [] 2 = some (Outcome.normal, s) ∧ s.ptr = 4294967295) :=
  ⟨⟨_, rfl, by decide⟩, ⟨_, rfl, by decide⟩⟩

/-- Claim C5 (what the code does). `SUB_CELL` on a cell holding 0 leaves it
holding `-1`, not 256. -/
theorem sub_cell_at_zero :
    ∃ s, dispatch [] 0 { type := SUB_CELL } (initState []) = Step.next s ∧ s.memory 0 = -1 :=
  ⟨_, rfl, by decide⟩

/-- Claim C6 (what the code does). `SUB_PTR` with the cursor at 0 leaves the
cursor at `4294967295`, not at 30000. -/
theorem sub_ptr_at_zero :
    ∃ s, dispatch [] 0 { type := SUB_PTR } (initState []) = Step.next s ∧ s.ptr = 4294967295 :=
  ⟨_, rfl, by decide⟩

/-- Claim C9 (what the code does). With the cell 0 holding 256 (stored by
`INPUT` from the input 256), `ADD_CELL` then `SUB_CELL` leaves the cell
holding `-1`, not 256. -/
theorem add_then_sub_cell_at_256 :
    (∃ s, parse [{ type := INPUT }] [256] 2 = some (Outcome.normal, s) ∧ s.memory 0 = 256)
    ∧ (∃ s, parse [{ type := INPUT }, { type := ADD_CELL }, { type := SUB_CELL }] [256] 4
          = some (Outcome.normal, s) ∧ s.memory 0 = -1) :=
  ⟨⟨_, rfl, by decide⟩, ⟨_, rfl, by decide⟩⟩

/-! ## Bracket scans -/

theorem get?_append_cons (pre post : List Token) (t : Token) :
    (pre ++ t :: post).get? pre.length = some t := by
  induction pre with
  | nil => rfl
  | cons a l ih => simpa using ih

/-- One turn of the forward scan over a token that exists. -/
theorem scanForward_step (tokens : List Token) (fuel i : Nat) (d : Int) (t : Token)
    (hd : d ≠ 0) (hi : i + 1 < MINUS_ONE) (ht : tokens.get? (i + 1) = some t) :
    scanForward tokens (fuel + 1) i d =
      scanForward tokens fuel (i + 1)
        (if t.type = END_LOOP then
          wrapInt ((if t.type = BEG_LOOP then wrapInt (d + 1) else d) - 1)
        else (if t.type = BEG_LOOP then wrapInt (d + 1) else d)) := by
  have hm : (i + 1) % UINT_SIZE = i + 1 := by
    unfold MINUS_ONE at hi; unfold UINT_SIZE; omega
  have hne : i + 1 ≠ MINUS_ONE := by omega
  simp only [scanForward, hd, ne_eq, not_false_eq_true, if_true, hm, hne, if_false, ht]

/-- One turn of the backward scan over a token that exists. -/
theorem scanBackward_step (tokens : List Token) (fuel i : Nat) (d : Int) (t : Token)
    (hd : d ≠ 0) (hi : i + 1 < MINUS_ONE) (ht : tokens.get? i = some t) :
    scanBackward tokens (fuel + 1) (i + 1) d =
      scanBackward tokens fuel i
        (if t.type = BEG_LOOP then
          wrapInt ((if t.type = END_LOOP then wrapInt (d + 1) else d) - 1)
        else (if t.type = END_LOOP then wrapInt (d + 1) else d)) := by
  have hm : (i + 1 + UINT_SIZE - 1) % UINT_SIZE = i := by
    unfold MINUS_ONE at hi; unfold UINT_SIZE; omega
  have hne : i ≠ MINUS_ONE := by omega
  simp only [scanBackward, hd, ne_eq, not_false_eq_true, if_true, hm, hne, if_false, ht]


/-- The forward scan crosses a balanced segment and leaves the depth counter
as it found it. -/
theorem scanForward_balanced (body : List Token) (hb : Balanced body) :
    ∀ (tokens pre post : List Token) (fuel i : Nat) (d : Int),
      tokens = pre ++ body ++ post → i + 1 = pre.length →
      tokens.length < 2147483648 → 1 ≤ d → d + body.length < 2147483648 →
      scanForward tokens (fuel + body.length) i d
        = scanForward tokens fuel (i + body.length) d := by
  induction hb with
  | nil => intro tokens pre post fuel i d _ _ _ _ _; rfl
  | plain t l h1 h2 _ ih =>
    intro tokens pre post fuel i d htok hi hlen hd hdl
    have hlen2 : tokens.length = pre.length + (l.length + 1) + post.length := by
      rw [htok]; simp; omega
    have ht : tokens.get? (i + 1) = some t := by
      rw [htok, hi, List.append_assoc, List.cons_append]; exact get?_append_cons _ _ _
    have hstep := scanForward_step tokens (fuel + l.length) i d t (by omega)
      (by unfold MINUS_ONE; omega) ht
    simp only [h1, h2, if_false] at hstep
    have := ih tokens (pre ++ [t]) post fuel (i + 1) d (by rw [htok]; simp)
      (by simp; omega) hlen hd (by simp at hdl; omega)
    simp only [List.length_cons]
    rw [show fuel + (l.length + 1) = fuel + l.length + 1 by omega, hstep, this]
    congr 1; omega
  | loop b r _ _ ihb ihr =>
    intro tokens pre post fuel i d htok hi hlen hd hdl
    simp only [List.length_cons, List.length_append, Nat.cast_add, Nat.cast_one] at hdl
    have hlen2 : tokens.length = pre.length + (b.length + r.length + 2) + post.length := by
      rw [htok]; simp; omega
    have ht1 : tokens.get? (i + 1) = some { type := BEG_LOOP } := by
      rw [htok, hi, List.append_assoc, List.cons_append]; exact get?_append_cons _ _ _
    have hstep1 := scanForward_step tokens (fuel + r.length + 1 + b.length) i d _ (by omega)
      (by unfold MINUS_ONE; omega) ht1
    simp only [reduceCtorEq, if_false, if_true] at hstep1
    rw [wrapInt_of_range _ (by omega) (by omega)] at hstep1
    have h1 := ihb tokens (pre ++ [{ type := BEG_LOOP }])
      ({ type := END_LOOP } :: r ++ post) (fuel + r.length + 1) (i + 1) (d + 1)
      (by rw [htok]; simp) (by simp; omega) hlen (by omega) (by omega)
    have ht2 : tokens.get? (i + 1 + b.length + 1) = some { type := END_LOOP } := by
      have : tokens = (pre ++ { type := BEG_LOOP } :: b) ++ { type := END_LOOP } :: (r ++ post) := by
        rw [htok]; simp
      rw [this, show i + 1 + b.length + 1 = (pre ++ { type := BEG_LOOP } :: b).length by simp; omega]
      exact get?_append_cons _ _ _
    have hstep2 := scanForward_step tokens (fuel + r.length) (i + 1 + b.length) (d + 1) _
      (by omega) (by unfold MINUS_ONE; omega) ht2
    simp only [reduceCtorEq, if_false, if_true] at hstep2
    rw [wrapInt_of_range _ (by omega) (by omega)] at hstep2
    have h2 := ihr tokens (pre ++ { type := BEG_LOOP } :: b ++ [{ type := END_LOOP }]) post fuel
      (i + 1 + b.length + 1) d (by rw [htok]; simp) (by simp; omega) hlen hd (by omega)
    simp only [List.length_cons, List.length_append]
    rw [show fuel + (b.length + 1 + (r.length + 1)) = fuel + r.length + 1 + b.length + 1 by omega,
      hstep1, h1, hstep2, show d + 1 - 1 = d by omega, h2]
    congr 1; omega

/-- The backward scan crosses a balanced segment and leaves the depth counter
as it found it. -/
theorem scanBackward_balanced (body : List Token) (hb : Balanced body) :
    ∀ (tokens pre post : List Token) (fuel : Nat) (d : Int),
      tokens = pre ++ body ++ post →
      tokens.length < 2147483648 → 1 ≤ d → d + body.length < 2147483648 →
      scanBackward tokens (fuel + body.length) (pre.length + body.length) d
        = scanBackward tokens fuel pre.length d := by
  induction hb with
  | nil => intro tokens pre post fuel d _ _ _ _; rfl
  | plain t l h1 h2 _ ih =>
    intro tokens pre post fuel d htok hlen hd hdl
    have hlen2 : tokens.length = pre.length + (l.length + 1) + post.length := by
      rw [htok]; simp; omega
    have ht : tokens.get? pre.length = some t := by
      rw [htok, List.append_assoc, List.cons_append]; exact get?_append_cons _ _ _
    have hstep := scanBackward_step tokens fuel pre.length d t (by omega)
      (by unfold MINUS_ONE; omega) ht
    simp only [h1, h2, if_false] at hstep
    have := ih tokens (pre ++ [t]) post (fuel + 1) d (by rw [htok]; simp)
      hlen hd (by simp at hdl; omega)
    simp only [List.length_append, List.length_singleton] at this
    simp only [List.length_cons]
    rw [show fuel + (l.length + 1) = fuel + 1 + l.length by omega,
      show pre.length + (l.length + 1) = pre.length + 1 + l.length by omega, this, hstep]
  | loop b r _ _ ihb ihr =>
    intro tokens pre post fuel d htok hlen hd hdl
    simp only [List.length_cons, List.length_append, Nat.cast_add, Nat.cast_one] at hdl
    have hlen2 : tokens.length = pre.length + (b.length + r.length + 2) + post.length := by
      rw [htok]; simp; omega
    have h2 := ihr tokens (pre ++ { type := BEG_LOOP } :: b ++ [{ type := END_LOOP }]) post
      (fuel + 1 + b.length + 1) d (by rw [htok]; simp) hlen hd (by omega)
    rw [show (pre ++ Token.mk BEG_LOOP :: b ++ [Token.mk END_LOOP]).length
      = pre.length + 1 + b.length + 1 by simp; omega] at h2
    have ht2 : tokens.get? (pre.length + 1 + b.length) = some { type := END_LOOP } := by
      have : tokens = (pre ++ { type := BEG_LOOP } :: b) ++ { type := END_LOOP } :: (r ++ post) := by
        rw [htok]; simp
      rw [this, show pre.length + 1 + b.length = (pre ++ { type := BEG_LOOP } :: b).length by simp; omega]
      exact get?_append_cons _ _ _
    have hstep2 := scanBackward_step tokens (fuel + 1 + b.length) (pre.length + 1 + b.length) d _
      (by omega) (by unfold MINUS_ONE; omega) ht2
    simp only [reduceCtorEq, if_false, if_true] at hstep2
    rw [wrapInt_of_range _ (by omega) (by omega)] at hstep2
    have h1 := ihb tokens (pre ++ [{ type := BEG_LOOP }])
      ({ type := END_LOOP } :: r ++ post) (fuel + 1) (d + 1)
      (by rw [htok]; simp) hlen (by omega) (by omega)
    simp only [List.length_append, List.length_singleton] at h1
    have ht1 : tokens.get? pre.length = some { type := BEG_LOOP } := by
      rw [htok, List.append_assoc, List.cons_append]; exact get?_append_cons _ _ _
    have hstep1 := scanBackward_step tokens fuel pre.length (d + 1) _ (by omega)
      (by unfold MINUS_ONE; omega) ht1
    simp only [reduceCtorEq, if_false, if_true] at hstep1
    rw [wrapInt_of_range _ (by omega) (by omega)] at hstep1
    simp only [List.length_cons, List.length_append]
    rw [show fuel + (b.length + 1 + (r.length + 1)) = fuel + 1 + b.length + 1 + r.length by omega,
      show pre.length + (b.length + 1 + (r.length + 1))
        = pre.length + 1 + b.length + 1 + r.length by omega, h2,
      hstep2, h1, hstep1, show d + 1 - 1 = d by omega]


/-- From a `BEG_LOOP` the forward scan stops on the `END_LOOP` that matches it. -/
theorem scanForward_matches (tokens : List Token) (p q fuel : Nat)
    (hm : Matches tokens p q) (hlen : tokens.length < 2147483648)
    (hfuel : tokens.length ≤ fuel) :
    scanForward tokens fuel p 1 = Scan.found q := by
  obtain ⟨pre, body, post, htok, hp, hq, hb⟩ := hm
  have hlen2 : tokens.length = pre.length + body.length + post.length + 2 := by
    rw [htok]; simp; omega
  obtain ⟨f, rfl⟩ : ∃ f, fuel = f + 1 + 1 + body.length := ⟨fuel - body.length - 2, by omega⟩
  have h1 := scanForward_balanced body hb tokens (pre ++ [Token.mk BEG_LOOP])
    (Token.mk END_LOOP :: post) (f + 1 + 1) p 1 (by rw [htok]; simp) (by simp; omega) hlen
    (by omega) (by omega)
  have ht : tokens.get? (p + body.length + 1) = some (Token.mk END_LOOP) := by
    have : tokens = (pre ++ Token.mk BEG_LOOP :: body) ++ Token.mk END_LOOP :: post := htok
    rw [this, show p + body.length + 1 = (pre ++ Token.mk BEG_LOOP :: body).length by simp; omega]
    exact get?_append_cons _ _ _
  have h2 := scanForward_step tokens (f + 1) (p + body.length) 1 _ (by omega)
    (by unfold MINUS_ONE; omega) ht
  simp only [reduceCtorEq, if_false, if_true] at h2
  rw [h1, h2, ← hq]
  simp [scanForward, wrapInt]

/-- From an `END_LOOP` the backward scan stops on the `BEG_LOOP` that matches it. -/
theorem scanBackward_matches (tokens : List Token) (p q fuel : Nat)
    (hm : Matches tokens p q) (hlen : tokens.length < 2147483648)
    (hfuel : tokens.length ≤ fuel) :
    scanBackward tokens fuel q 1 = Scan.found p := by
  obtain ⟨pre, body, post, htok, hp, hq, hb⟩ := hm
  have hlen2 : tokens.length = pre.length + body.length + post.length + 2 := by
    rw [htok]; simp; omega
  obtain ⟨f, rfl⟩ : ∃ f, fuel = f + 1 + 1 + body.length := ⟨fuel - body.length - 2, by omega⟩
  have h1 := scanBackward_balanced body hb tokens (pre ++ [Token.mk BEG_LOOP])
    (Token.mk END_LOOP :: post) (f + 1 + 1) 1 (by rw [htok]; simp) hlen (by omega) (by omega)
  rw [show (pre ++ [Token.mk BEG_LOOP]).length = p + 1 by simp; omega] at h1
  have ht : tokens.get? p = some (Token.mk BEG_LOOP) := by
    rw [htok, ← hp, List.append_assoc, List.cons_append]; exact get?_append_cons _ _ _
  have h2 := scanBackward_step tokens (f + 1) p 1 _ (by omega)
    (by unfold MINUS_ONE; omega) ht
  simp only [reduceCtorEq, if_false, if_true] at h2
  rw [← hq, show p + body.length + 1 = p + 1 + body.length by omega, h1, h2]
  simp [scanBackward, wrapInt]

/-! ## Matching brackets exist in a balanced sequence -/

theorem Matches.cons (t : Token) {l : List Token} {p q : Nat} (h : Matches l p q) :
    Matches (t :: l) (p + 1) (q + 1) := by
  obtain ⟨pre, body, post, htok, hp, hq, hb⟩ := h
  exact ⟨t :: pre, body, post, by rw [htok]; simp, by simp; omega, by omega, hb⟩

theorem Matches.append_left (l0 : List Token) {l : List Token} {p q : Nat} (h : Matches l p q) :
    Matches (l0 ++ l) (l0.length + p) (l0.length + q) := by
  obtain ⟨pre, body, post, htok, hp, hq, hb⟩ := h
  exact ⟨l0 ++ pre, body, post, by rw [htok]; simp, by simp; omega, by omega, hb⟩

theorem Matches.append_right {l : List Token} (l1 : List Token) {p q : Nat} (h : Matches l p q) :
    Matches (l ++ l1) p q := by
  obtain ⟨pre, body, post, htok, hp, hq, hb⟩ := h
  exact ⟨pre, body, post ++ l1, by rw [htok]; simp, hp, hq, hb⟩

/-- In a balanced sequence every `BEG_LOOP` has a matching `END_LOOP`, and
every `END_LOOP` a matching `BEG_LOOP`. -/
theorem Balanced.exists_match (l : List Token) (hb : Balanced l) :
    (∀ p, l.get? p = some (Token.mk BEG_LOOP) → ∃ q, Matches l p q)
    ∧ (∀ q, l.get? q = some (Token.mk END_LOOP) → ∃ p, Matches l p q) := by
  induction hb with
  | nil => constructor <;> intro p h <;> simp at h
  | plain t l h1 h2 _ ih =>
    constructor
    · intro p h
      cases p with
      | zero => simp at h; subst h; simp at h1
      | succ p =>
        obtain ⟨q, hq⟩ := ih.1 p (by simpa using h)
        exact ⟨q + 1, Matches.cons t hq⟩
    · intro q h
      cases q with
      | zero => simp at h; subst h; simp at h2
      | succ q =>
        obtain ⟨p, hp⟩ := ih.2 q (by simpa using h)
        exact ⟨p + 1, Matches.cons t hp⟩
  | loop b r hbb _ ihb ihr =>
    have hwhole : Matches (Token.mk BEG_LOOP :: b ++ Token.mk END_LOOP :: r) 0 (b.length + 1) :=
      ⟨[], b, r, by simp, rfl, by omega, hbb⟩
    constructor
    · intro p h
      cases p with
      | zero => exact ⟨_, hwhole⟩
      | succ p =>
        have h' : (b ++ Token.mk END_LOOP :: r).get? p = some (Token.mk BEG_LOOP) := by
          simpa using h
        rcases Nat.lt_trichotomy p b.length with hlt | heq | hgt
        · rw [List.get?_eq_getElem?, List.getElem?_append_left hlt, ← List.get?_eq_getElem?] at h'
          obtain ⟨q, hq⟩ := ihb.1 p h'
          exact ⟨q + 1, Matches.cons _ (Matches.append_right (Token.mk END_LOOP :: r) hq)⟩
        · rw [heq, get?_append_cons] at h'
          simp at h'
        · obtain ⟨k, rfl⟩ : ∃ k, p = b.length + 1 + k := ⟨p - b.length - 1, by omega⟩
          have h'' : r.get? k = some (Token.mk BEG_LOOP) := by
            rw [List.get?_eq_getElem?, List.getElem?_append_right (by omega)] at h'
            rw [show b.length + 1 + k - b.length = k + 1 by omega] at h'
            simpa using h'
          obtain ⟨q, hq⟩ := ihr.1 k h''
          have := Matches.append_left (Token.mk BEG_LOOP :: b ++ [Token.mk END_LOOP]) hq
          refine ⟨(Token.mk BEG_LOOP :: b ++ [Token.mk END_LOOP]).length + q, ?_⟩
          convert this using 1
          · simp
          · simp; omega
    · intro q h
      cases q with
      | zero => simp at h
      | succ q =>
        have h' : (b ++ Token.mk END_LOOP :: r).get? q = some (Token.mk END_LOOP) := by
          simpa using h
        rcases Nat.lt_trichotomy q b.length with hlt | heq | hgt
        · rw [List.get?_eq_getElem?, List.getElem?_append_left hlt, ← List.get?_eq_getElem?] at h'
          obtain ⟨p, hp⟩ := ihb.2 q h'
          exact ⟨p + 1, Matches.cons _ (Matches.append_right (Token.mk END_LOOP :: r) hp)⟩
        · rw [heq]; exact ⟨0, hwhole⟩
        · obtain ⟨k, rfl⟩ : ∃ k, q = b.length + 1 + k := ⟨q - b.length - 1, by omega⟩
          have h'' : r.get? k = some (Token.mk END_LOOP) := by
            rw [List.get?_eq_getElem?, List.getElem?_append_right (by omega)] at h'
            rw [show b.length + 1 + k - b.length = k + 1 by omega] at h'
            simpa using h'
          obtain ⟨p, hp⟩ := ihr.2 k h''
          have := Matches.append_left (Token.mk BEG_LOOP :: b ++ [Token.mk END_LOOP]) hp
          refine ⟨(Token.mk BEG_LOOP :: b ++ [Token.mk END_LOOP]).length + p, ?_⟩
          convert this using 1
          · simp
          · simp; omega


theorem Matches.lt {tokens : List Token} {p q : Nat} (h : Matches tokens p q) :
    p < q ∧ q < tokens.length := by
  obtain ⟨pre, body, post, htok, hp, hq, _⟩ := h
  have : tokens.length = pre.length + body.length + post.length + 2 := by
    rw [htok]; simp; omega
  omega

/-- Claim C4. In a balanced token sequence, a `BEG_LOOP` executed at index `p`
on a zero cell leaves the instruction index on the `END_LOOP` that matches `p`
(and the step loop then moves to the token after it); an `END_LOOP` executed at
index `q` on a non-zero cell leaves it on the `BEG_LOOP` that matches `q` (and
the step loop then moves to the token after that `BEG_LOOP`).  The matching
bracket is the only one that `Matches` pairs with the executed one. -/
theorem bracket_matching (tokens : List Token) (hbal : Balanced tokens)
    (hlen : tokens.length < 2147483648) (fuel : Nat) (hfuel : tokens.length ≤ fuel)
    (s : State) (hptr : s.ptr < MEMORY_SIZE) :
    (tokens.get? s.i = some (Token.mk BEG_LOOP) → s.memory s.ptr = 0 →
      ∃ q, Matches tokens s.i q ∧ (∀ q', Matches tokens s.i q' → q' = q)
        ∧ dispatch tokens fuel (Token.mk BEG_LOOP) s = Step.next { s with i := q }
        ∧ step tokens fuel s = Step.next { s with i := q + 1 })
    ∧ (tokens.get? s.i = some (Token.mk END_LOOP) → s.memory s.ptr ≠ 0 →
      ∃ p, Matches tokens p s.i ∧ (∀ p', Matches tokens p' s.i → p' = p)
        ∧ dispatch tokens fuel (Token.mk END_LOOP) s = Step.next { s with i := p }
        ∧ step tokens fuel s = Step.next { s with i := p + 1 }) := by
  constructor
  · intro hget hzero
    obtain ⟨q, hq⟩ := (Balanced.exists_match tokens hbal).1 s.i hget
    have hs := scanForward_matches tokens s.i q fuel hq hlen hfuel
    have hmod : (q + 1) % UINT_SIZE = q + 1 := by
      have := hq.lt; unfold UINT_SIZE; omega
    have hd : dispatch tokens fuel (Token.mk BEG_LOOP) s = Step.next { s with i := q } := by
      simp [dispatch, hptr, hzero, hs]
    refine ⟨q, hq, ?_, hd, ?_⟩
    · intro q' hq'
      have hs' := scanForward_matches tokens s.i q' fuel hq' hlen hfuel
      rw [hs] at hs'
      exact (Scan.found.inj hs').symm
    · simp only [step, hget, hd, hmod]
  · intro hget hnz
    obtain ⟨p, hp⟩ := (Balanced.exists_match tokens hbal).2 s.i hget
    have hs := scanBackward_matches tokens p s.i fuel hp hlen hfuel
    have hmod : (p + 1) % UINT_SIZE = p + 1 := by
      have := hp.lt; unfold UINT_SIZE; omega
    have hd : dispatch tokens fuel (Token.mk END_LOOP) s = Step.next { s with i := p } := by
      simp [dispatch, hptr, hnz, hs]
    refine ⟨p, hp, ?_, hd, ?_⟩
    · intro p' hp'
      have hs' := scanBackward_matches tokens p' s.i fuel hp' hlen hfuel
      rw [hs] at hs'
      exact (Scan.found.inj hs').symm
    · simp only [step, hget, hd, hmod]

/-- The program `[ [ not ] ]` is balanced. -/
theorem nested_program_balanced :
    Balanced [Token.mk BEG_LOOP, Token.mk BEG_LOOP, Token.mk SUB_CELL, Token.mk END_LOOP,
      Token.mk END_LOOP] :=
  Balanced.loop [Token.mk BEG_LOOP, Token.mk SUB_CELL, Token.mk END_LOOP] []
    (Balanced.loop [Token.mk SUB_CELL] []
      (Balanced.plain _ _ (by decide) (by decide) Balanced.nil) Balanced.nil)
    Balanced.nil

/-- Claim C4 (an instance). In the program `[ [ not ] ]` the outer `BEG_LOOP`,
executed at index 0 on a zero cell, is followed by index 5, past the last
token, and the outer `END_LOOP`, executed at index 4 on a cell holding 1, is
followed by the token at index 1. -/
theorem bracket_matching_witness :
    (∃ q, Matches [Token.mk BEG_LOOP, Token.mk BEG_LOOP, Token.mk SUB_CELL, Token.mk END_LOOP,
          Token.mk END_LOOP] 0 q
        ∧ step [Token.mk BEG_LOOP, Token.mk BEG_LOOP, Token.mk SUB_CELL, Token.mk END_LOOP,
          Token.mk END_LOOP] 5 (initState []) = Step.next { initState [] with i := q + 1 }
        ∧ q = 4)
    ∧ (∃ p, Matches [Token.mk BEG_LOOP, Token.mk BEG_LOOP, Token.mk SUB_CELL, Token.mk END_LOOP,
          Token.mk END_LOOP] p 4
        ∧ step [Token.mk BEG_LOOP, Token.mk BEG_LOOP, Token.mk SUB_CELL, Token.mk END_LOOP,
          Token.mk END_LOOP] 5 { initState [] with memory := fun _ => 1, i := 4 }
            = Step.next { initState [] with memory := fun _ => 1, i := p + 1 }
        ∧ p = 0) := by
  constructor
  · obtain ⟨q, hq, _, hd, hs⟩ := (bracket_matching _ nested_program_balanced (by decide) 5
      (by decide) (initState []) (by decide)).1 rfl rfl
    refine ⟨q, hq, hs, ?_⟩
    have h4 : dispatch [Token.mk BEG_LOOP, Token.mk BEG_LOOP, Token.mk SUB_CELL,
        Token.mk END_LOOP, Token.mk END_LOOP] 5 (Token.mk BEG_LOOP) (initState [])
        = Step.next { initState [] with i := 4 } := rfl
    rw [h4] at hd
    exact (congrArg State.i (Step.next.inj hd)).symm
  · obtain ⟨p, hp, _, hd, hs⟩ := (bracket_matching _ nested_program_balanced (by decide) 5
      (by decide) { initState [] with memory := fun _ => 1, i := 4 } (by decide)).2 rfl
      (by decide)
    refine ⟨p, hp, hs, ?_⟩
    have h0 : dispatch [Token.mk BEG_LOOP, Token.mk BEG_LOOP, Token.mk SUB_CELL,
        Token.mk END_LOOP, Token.mk END_LOOP] 5 (Token.mk END_LOOP)
        { initState [] with memory := fun _ => 1, i := 4 }
        = Step.next { initState [] with memory := fun _ => 1, i := 0 } := rfl
    rw [h0] at hd
    exact (congrArg State.i (Step.next.inj hd)).symm

/-! ## The lexer: scan states and single turns of the scan loop -/

theorem getD_append_cons (pre rest : List Nat) (c : Nat) :
    (pre ++ c :: rest).getD pre.length 0 = c := by
  induction pre with
  | nil => rfl
  | cons a l ih => simpa using ih

theorem getD_append_headD (pre rest : List Nat) :
    (pre ++ rest).getD pre.length 0 = rest.headD 0 := by
  cases rest with
  | nil => simp
  | cons c rest => exact getD_append_cons pre rest c

theorem advance_scanAt (src : List Nat) (p : Nat) (hp : p < src.length)
    (hlen : src.length < UINT_SIZE) : advance (scanAt src p) src = scanAt src (p + 1) := by
  have hm : (p + 1) % UINT_SIZE = p + 1 := Nat.mod_eq_of_lt (by omega)
  simp only [advance, scanAt, hm]
  split
  · rfl
  · rw [List.getD_eq_default _ _ (by omega)]

theorem lex_eq_lexLoop (uninit : TokenType) (src : List Nat) (fuel : Nat) :
    lex uninit src fuel = lexLoop uninit src fuel (scanAt src 0) [] := by
  have h : advance { position := MINUS_ONE, currentChar := 0 } src = scanAt src 0 := by
    simp only [advance, scanAt, MINUS_ONE, UINT_SIZE]
    split
    · rfl
    · rename_i h
      rw [List.getD_eq_default _ _ (by simpa using h)]
  simp only [lex, h]

theorem accumulate_succ (src : List Nat) (fuel : Nat) (result : AdvanceResult)
    (tokenStr : List Nat) :
    accumulate src (fuel + 1) result tokenStr =
      if result.currentChar ≠ 0 ∧ isalpha result.currentChar then
        accumulate src fuel (advance result src) (tokenStr ++ [result.currentChar])
      else some (tokenStr, result) := rfl

/-- The accumulation loop of `makeToken` takes a whole run of letters. -/
theorem accumulate_word (src : List Nat) (hlen : src.length < UINT_SIZE) (w : List Nat) :
    ∀ (pre rest buf : List Nat) (fuel : Nat),
      src = pre ++ w ++ rest → (∀ c ∈ w, isalpha c) → ¬ isalpha (rest.headD 0) →
      accumulate src (fuel + w.length + 1) (scanAt src pre.length) buf
        = some (buf ++ w, scanAt src (pre.length + w.length)) := by
  induction w with
  | nil =>
    intro pre rest buf fuel hsrc _ hrest
    have hc : (scanAt src pre.length).currentChar = rest.headD 0 := by
      simp only [scanAt, hsrc, List.append_nil]; exact getD_append_headD pre rest
    have hno : ¬ ((scanAt src pre.length).currentChar ≠ 0
        ∧ isalpha (scanAt src pre.length).currentChar) := by
      rw [hc]; exact fun h => hrest h.2
    rw [accumulate_succ, if_neg hno]
    simp
  | cons c w ih =>
    intro pre rest buf fuel hsrc hw hrest
    have hc : (scanAt src pre.length).currentChar = c := by
      simp only [scanAt, hsrc, List.append_assoc, List.cons_append]
      exact getD_append_cons pre _ c
    have halpha : isalpha c := hw c (List.mem_cons_self _ _)
    have hc0 : c ≠ 0 := by
      unfold isalpha at halpha; omega
    have hp : pre.length < src.length := by
      rw [hsrc]; simp
    have hadv := advance_scanAt src pre.length hp hlen
    have := ih (pre ++ [c]) rest (buf ++ [c]) fuel (by rw [hsrc]; simp)
      (fun x hx => hw x (List.mem_cons_of_mem _ hx)) hrest
    have hyes : (scanAt src pre.length).currentChar ≠ 0
        ∧ isalpha (scanAt src pre.length).currentChar := by
      rw [hc]; exact ⟨hc0, halpha⟩
    rw [show fuel + (c :: w).length + 1 = (fuel + w.length + 1) + 1 by simp; omega,
      accumulate_succ, if_pos hyes, hadv, hc,
      show pre.length + 1 = (pre ++ [c]).length by simp, this]
    simp only [List.append_assoc, List.singleton_append, List.length_append,
      List.length_singleton, List.length_cons, List.length_nil, Nat.zero_add, Nat.add_assoc,
      Nat.add_comm 1]


theorem lexLoop_succ (uninit : TokenType) (src : List Nat) (fuel : Nat)
    (result : AdvanceResult) (tokens : List Token) :
    lexLoop uninit src (fuel + 1) result tokens =
      if result.currentChar ≠ 0 then
        if result.currentChar = 32 ∨ result.currentChar = 9 ∨ result.currentChar = 10
            ∨ result.currentChar = 13 then
          lexLoop uninit src fuel (advance result src) tokens
        else if isalpha result.currentChar then
          match makeToken uninit fuel result src with
          | none => none
          | some (token, result) => lexLoop uninit src fuel result (tokens ++ [token])
        else if result.currentChar = 91 then
          lexLoop uninit src fuel (advance result src) (tokens ++ [{ type := BEG_LOOP }])
        else if result.currentChar = 93 then
          lexLoop uninit src fuel (advance result src) (tokens ++ [{ type := END_LOOP }])
        else lexLoop uninit src fuel result tokens
      else some tokens := rfl

/-- At the sentinel the scan loop ends. -/
theorem lexLoop_sentinel (uninit : TokenType) (src : List Nat) (fuel p : Nat)
    (acc : List Token) (hp : src.length ≤ p) :
    lexLoop uninit src (fuel + 1) (scanAt src p) acc = some acc := by
  have hc : (scanAt src p).currentChar = 0 := by
    simp only [scanAt]; exact List.getD_eq_default _ _ hp
  rw [lexLoop_succ, hc]; simp

/-- A whitespace character is consumed without a token. -/
theorem lexLoop_space (uninit : TokenType) (src : List Nat) (hlen : src.length < UINT_SIZE)
    (pre rest : List Nat) (c fuel : Nat) (acc : List Token) (hsrc : src = pre ++ c :: rest)
    (hc : c = 32 ∨ c = 9 ∨ c = 10 ∨ c = 13) :
    lexLoop uninit src (fuel + 1) (scanAt src pre.length) acc
      = lexLoop uninit src fuel (scanAt src (pre.length + 1)) acc := by
  have hcur : (scanAt src pre.length).currentChar = c := by
    simp only [scanAt, hsrc]; exact getD_append_cons pre rest c
  have hadv := advance_scanAt src pre.length (by rw [hsrc]; simp) hlen
  have hc0 : c ≠ 0 := by omega
  rw [lexLoop_succ, hcur, if_pos hc0, if_pos hc, hadv]

/-- The character `[` yields `BEG_LOOP` and `]` yields `END_LOOP`. -/
theorem lexLoop_bracket (uninit : TokenType) (src : List Nat) (hlen : src.length < UINT_SIZE)
    (pre rest : List Nat) (c fuel : Nat) (acc : List Token) (hsrc : src = pre ++ c :: rest)
    (hc : c = 91 ∨ c = 93) :
    lexLoop uninit src (fuel + 1) (scanAt src pre.length) acc
      = lexLoop uninit src fuel (scanAt src (pre.length + 1))
          (acc ++ [{ type := if c = 91 then BEG_LOOP else END_LOOP }]) := by
  have hcur : (scanAt src pre.length).currentChar = c := by
    simp only [scanAt, hsrc]; exact getD_append_cons pre rest c
  have hadv := advance_scanAt src pre.length (by rw [hsrc]; simp) hlen
  have hc0 : c ≠ 0 := by omega
  have hws : ¬ (c = 32 ∨ c = 9 ∨ c = 10 ∨ c = 13) := by omega
  have hal : ¬ isalpha c := by unfold isalpha; omega
  rw [lexLoop_succ, hcur, if_pos hc0, if_neg hws, if_neg hal, hadv]
  rcases hc with rfl | rfl
  · simp
  · simp

/-- A run of letters yields one token: the one `keyword` gives for the run. -/
theorem lexLoop_word (uninit : TokenType) (src : List Nat) (hlen : src.length < UINT_SIZE)
    (pre w rest : List Nat) (fuel : Nat) (acc : List Token) (hsrc : src = pre ++ w ++ rest)
    (hne : w ≠ []) (hw : ∀ c ∈ w, isalpha c) (hrest : ¬ isalpha (rest.headD 0)) :
    lexLoop uninit src (fuel + w.length + 1 + 1) (scanAt src pre.length) acc
      = lexLoop uninit src (fuel + w.length + 1) (scanAt src (pre.length + w.length))
          (acc ++ [{ type := keyword uninit w }]) := by
  obtain ⟨c, w', rfl⟩ := List.exists_cons_of_ne_nil hne
  have hcur : (scanAt src pre.length).currentChar = c := by
    simp only [scanAt, hsrc, List.append_assoc, List.cons_append]
    exact getD_append_cons pre _ c
  have hal : isalpha c := hw c (List.mem_cons_self _ _)
  have hc0 : c ≠ 0 := by unfold isalpha at hal; omega
  have hws : ¬ (c = 32 ∨ c = 9 ∨ c = 10 ∨ c = 13) := by unfold isalpha at hal; omega
  have hacc := accumulate_word src hlen (c :: w') pre rest [] fuel hsrc hw hrest
  rw [lexLoop_succ, hcur, if_pos hc0, if_neg hws, if_pos hal]
  simp only [makeToken, hacc, List.nil_append]


/-! ## Lexing a rendered token sequence -/

theorem surface_length_pos (t : TokenType) (ht : t ≠ INVALID) : 1 ≤ (surface t).length := by
  cases t <;> first | exact absurd rfl ht | decide

/-- The surface form of one of the eight opcodes, followed by a character that
is no letter, yields that opcode. -/
theorem lexLoop_surface (uninit : TokenType) (src : List Nat) (hlen : src.length < UINT_SIZE)
    (t : Token) (ht : t.type ≠ INVALID) (pre rest : List Nat) (fuel : Nat) (acc : List Token)
    (hsrc : src = pre ++ surface t.type ++ rest) (hrest : ¬ isalpha (rest.headD 0)) :
    lexLoop uninit src (fuel + (surface t.type).length + 1 + 1) (scanAt src pre.length) acc
      = lexLoop uninit src (fuel + (surface t.type).length + 1)
          (scanAt src (pre.length + (surface t.type).length)) (acc ++ [t]) := by
  obtain ⟨ty⟩ := t
  have hword : ∀ w : List Nat, surface ty = w → w ≠ [] → (∀ c ∈ w, isalpha c) →
      keyword uninit w = ty →
      lexLoop uninit src (fuel + (surface ty).length + 1 + 1) (scanAt src pre.length) acc
        = lexLoop uninit src (fuel + (surface ty).length + 1)
            (scanAt src (pre.length + (surface ty).length)) (acc ++ [{ type := ty }]) := by
    intro w hs hne hw hk
    rw [hs] at hsrc ⊢
    rw [lexLoop_word uninit src hlen pre w rest fuel acc hsrc hne hw hrest, hk]
  have hbr : ∀ c : Nat, surface ty = [c] → (c = 91 ∨ c = 93) →
      (if c = 91 then BEG_LOOP else END_LOOP) = ty →
      lexLoop uninit src (fuel + (surface ty).length + 1 + 1) (scanAt src pre.length) acc
        = lexLoop uninit src (fuel + (surface ty).length + 1)
            (scanAt src (pre.length + (surface ty).length)) (acc ++ [{ type := ty }]) := by
    intro c hs hc hk
    rw [hs] at hsrc ⊢
    rw [lexLoop_bracket uninit src hlen pre rest c _ acc (by simpa using hsrc) hc, hk]
    rfl
  cases ty with
  | INPUT => exact hword _ rfl (by decide) (by decide) rfl
  | OUTPUT => exact hword _ rfl (by decide) (by decide) rfl
  | SUB_CELL => exact hword _ rfl (by decide) (by decide) rfl
  | ADD_CELL => exact hword _ rfl (by decide) (by decide) rfl
  | SUB_PTR => exact hword _ rfl (by decide) (by decide) rfl
  | ADD_PTR => exact hword _ rfl (by decide) (by decide) rfl
  | BEG_LOOP => exact hbr 91 rfl (by decide) (by decide)
  | END_LOOP => exact hbr 93 rfl (by decide) (by decide)
  | INVALID => exact absurd rfl ht

theorem render_cons_cons (t t2 : Token) (ts : List Token) :
    render (t :: t2 :: ts) = surface t.type ++ 32 :: render (t2 :: ts) := rfl

/-- From any position at which the rest of the source is a rendered sequence of
the eight opcodes, the scan loop appends exactly that sequence. -/
theorem lexLoop_render (uninit : TokenType) (src : List Nat) (hlen : src.length < UINT_SIZE) :
    ∀ (ts : List Token), (∀ t ∈ ts, t.type ≠ INVALID) →
      ∀ (pre : List Nat) (acc : List Token) (fuel : Nat),
        src = pre ++ render ts → (render ts).length + 2 ≤ fuel →
        lexLoop uninit src fuel (scanAt src pre.length) acc = some (acc ++ ts) := by
  intro ts
  induction ts with
  | nil =>
    intro _ pre acc fuel hsrc hfuel
    obtain ⟨f, rfl⟩ : ∃ f, fuel = f + 1 := ⟨fuel - 1, by omega⟩
    rw [lexLoop_sentinel uninit src f pre.length acc (by rw [hsrc]; simp [render])]
    simp
  | cons t ts ih =>
    intro hts pre acc fuel hsrc hfuel
    have ht : t.type ≠ INVALID := hts t (List.mem_cons_self _ _)
    have hpos := surface_length_pos t.type ht
    cases ts with
    | nil =>
      have hr : render [t] = surface t.type := rfl
      rw [hr] at hsrc hfuel
      obtain ⟨f, rfl⟩ : ∃ f, fuel = f + (surface t.type).length + 1 + 1 :=
        ⟨fuel - (surface t.type).length - 2, by omega⟩
      rw [lexLoop_surface uninit src hlen t ht pre [] f acc (by simpa using hsrc) (by decide),
        lexLoop_sentinel uninit src _ _ _ (by rw [hsrc]; simp)]
    | cons t2 ts =>
      rw [render_cons_cons] at hsrc hfuel
      simp only [List.length_append, List.length_cons] at hfuel
      obtain ⟨f, rfl⟩ : ∃ f, fuel = f + (surface t.type).length + 1 + 1 :=
        ⟨fuel - (surface t.type).length - 2, by omega⟩
      rw [lexLoop_surface uninit src hlen t ht pre (32 :: render (t2 :: ts)) f acc
          (by rw [hsrc]; simp) (by show ¬ isalpha 32; decide),
        show pre.length + (surface t.type).length = (pre ++ surface t.type).length by simp,
        lexLoop_space uninit src hlen (pre ++ surface t.type) (render (t2 :: ts)) 32 _ (acc ++ [t])
          (by rw [hsrc]; simp) (Or.inl rfl),
        show (pre ++ surface t.type).length + 1 = (pre ++ surface t.type ++ [32]).length by
          simp [Nat.add_assoc],
        ih (fun x hx => hts x (List.mem_cons_of_mem _ hx)) (pre ++ surface t.type ++ [32])
          (acc ++ [t]) _ (by rw [hsrc]; simp) (by omega)]
      simp

/-- Claim C2. For every sequence `ts` of the eight opcodes whose rendering
(surface forms joined with single spaces) is shorter than `2 ^ 32` bytes, the
range of the position counter of `lex`, lexing the rendering yields `ts`, with
any fuel of at least the length of the rendering plus 2. -/
theorem lex_render_round_trip (uninit : TokenType) (ts : List Token)
    (hts : ∀ t ∈ ts, t.type ≠ INVALID) (hlen : (render ts).length < UINT_SIZE)
    (fuel : Nat) (hfuel : (render ts).length + 2 ≤ fuel) :
    lex uninit (render ts) fuel = some ts := by
  rw [lex_eq_lexLoop]
  have := lexLoop_render uninit (render ts) hlen ts hts [] [] fuel rfl hfuel
  simpa using this

/-- Claim C2 (an instance). The source `notarch` lexes to the single token
`SUB_PTR`, not to `SUB_CELL` followed by `ADD_PTR`. -/
theorem lex_render_round_trip_witness :
    render [{ type := SUB_PTR }] = bytes "notarch"
    ∧ lex INVALID (bytes "notarch") 9 = some [{ type := SUB_PTR }] :=
  ⟨rfl, lex_render_round_trip INVALID [{ type := SUB_PTR }] (by decide) (by decide) 9
    (by decide)⟩

/-! ## A character of no branch -/

/-- With the look-ahead on a non-zero character of no branch the scan loop of
`lex` makes no progress. -/
theorem lexLoop_no_branch (uninit : TokenType) (src : List Nat) (p c : Nat) (hc0 : c ≠ 0)
    (hws : ¬ (c = 32 ∨ c = 9 ∨ c = 10 ∨ c = 13)) (hal : ¬ isalpha c)
    (h91 : c ≠ 91) (h93 : c ≠ 93) :
    ∀ (fuel : Nat) (acc : List Token),
      lexLoop uninit src fuel { position := p, currentChar := c } acc = none := by
  intro fuel
  induction fuel with
  | zero => intro acc; rfl
  | succ f ih =>
    intro acc
    rw [lexLoop_succ, if_pos hc0, if_neg hws, if_neg hal, if_neg h91, if_neg h93]
    exact ih acc

/-- Claim C3 (what the code does). On the source `use+use` the lexer returns
for no amount of fuel: after the token of `use` the scan loop stays on the
character `+` for ever. -/
theorem lex_hangs_on_plus (uninit : TokenType) (fuel : Nat) :
    lex uninit (bytes "use+use") fuel = none := by
  rcases fuel with _ | _ | _ | _ | _ | f
  · rfl
  · rfl
  · rfl
  · rfl
  · rfl
  · exact lexLoop_no_branch uninit (bytes "use+use") 3 43 (by decide) (by decide) (by decide)
      (by decide) (by decide) (f + 4) [{ type := ADD_CELL }]

/-! ## What the two downward branches do -/

/-- `SUB_CELL` decrements the cell and never wraps it: the test
`memory[ptr] < MIN_CELL_SIZE` compares with the unsigned 0 and is never true.
On a cell holding `v` above the least `int`, the cell ends at `v - 1`. -/
theorem sub_cell_decrements (tokens : List Token) (fuel : Nat) (s : State)
    (hptr : s.ptr < MEMORY_SIZE) (h1 : -2147483648 < s.memory s.ptr)
    (h2 : s.memory s.ptr < 2147483648) :
    dispatch tokens fuel { type := SUB_CELL } s =
      Step.next { s with memory := setCell s.memory s.ptr (s.memory s.ptr - 1) } := by
  have hw : wrapInt (s.memory s.ptr - 1) = s.memory s.ptr - 1 :=
    wrapInt_of_range _ (by omega) (by omega)
  simp only [dispatch, reduceCtorEq, if_false, if_true, hptr, setCell_same, hw,
    MIN_CELL_SIZE, Nat.not_lt_zero]

/-- An instance of `sub_cell_decrements`: from 0 the cell goes to `-1`. -/
theorem sub_cell_decrements_witness :
    dispatch [] 0 { type := SUB_CELL } (initState []) =
      Step.next { initState [] with memory := setCell (fun _ => 0) 0 (-1) } :=
  sub_cell_decrements [] 0 (initState []) (by decide) (by decide) (by decide)

/-- `SUB_PTR` decrements the cursor modulo `2 ^ 32` and never wraps it to
`CELLS_END`: the test `ptr < CELLS_BEGIN` compares with the unsigned 0 and is
never true.  A cursor `c` in `[1, 30000]` moves to `c - 1`, the cursor 0 to
`4294967295`. -/
theorem sub_ptr_decrements (tokens : List Token) (fuel : Nat) (s : State)
    (hc : s.ptr ≤ 30000) :
    dispatch tokens fuel { type := SUB_PTR } s =
      Step.next { s with ptr := if s.ptr = 0 then 4294967295 else s.ptr - 1 } := by
  have hm : (s.ptr + UINT_SIZE - 1) % UINT_SIZE = if s.ptr = 0 then 4294967295 else s.ptr - 1 := by
    unfold UINT_SIZE; split <;> omega
  simp only [dispatch, reduceCtorEq, if_false, if_true, hm, CELLS_BEGIN, Nat.not_lt_zero]

/-- An instance of `sub_ptr_decrements`: the cursor 30000 moves to 29999. -/
theorem sub_ptr_decrements_witness :
    dispatch [] 0 { type := SUB_PTR } { initState [] with ptr := 30000 } =
      Step.next { initState [] with ptr := 29999 } :=
  sub_ptr_decrements [] 0 { initState [] with ptr := 30000 } (by decide)

/-! ## The scan loop of `lex` never passes a character of no branch -/

theorem getD_prefix_or (pre rest : List Nat) (c p : Nat) (hp : p ≤ pre.length) :
    (p = pre.length ∧ (pre ++ c :: rest).getD p 0 = c)
    ∨ (p < pre.length ∧ (pre ++ c :: rest).getD p 0 ∈ pre) := by
  rcases Nat.lt_or_ge p pre.length with h | h
  · right
    refine ⟨h, ?_⟩
    rw [List.getD_eq_getElem _ _ (by simp; omega), List.getElem_append_left h]
    exact List.getElem_mem _
  · left
    have : p = pre.length := by omega
    subst this
    exact ⟨rfl, getD_append_cons pre rest c⟩

/-- The accumulation loop of `makeToken`, entered before a character that is no
letter, either runs out of fuel or stops at or before that character. -/
theorem accumulate_before (pre rest : List Nat) (c : Nat) (hal : ¬ isalpha c)
    (hlen : (pre ++ c :: rest).length < UINT_SIZE) :
    ∀ (fuel p : Nat) (buf : List Nat), p ≤ pre.length →
      accumulate (pre ++ c :: rest) fuel (scanAt (pre ++ c :: rest) p) buf = none
      ∨ ∃ w p', p' ≤ pre.length ∧
          accumulate (pre ++ c :: rest) fuel (scanAt (pre ++ c :: rest) p) buf
            = some (w, scanAt (pre ++ c :: rest) p') := by
  intro fuel
  induction fuel with
  | zero => intro p buf _; exact Or.inl rfl
  | succ f ih =>
    intro p buf hp
    rw [accumulate_succ]
    split
    · rename_i hcond
      have hlt : p < pre.length := by
        rcases getD_prefix_or pre rest c p hp with ⟨_, h⟩ | ⟨h, _⟩
        · exact absurd (by simpa only [scanAt, h] using hcond.2) hal
        · exact h
      rw [advance_scanAt _ p (by simp; omega) hlen]
      exact ih (p + 1) _ hlt
    · exact Or.inr ⟨buf, p, hp, rfl⟩

/-- Entered at or before a non-zero character of no branch, with no zero byte
in between, the scan loop of `lex` does not end. -/
theorem lexLoop_before_stuck (uninit : TokenType) (pre rest : List Nat) (c : Nat)
    (hpre : ∀ x ∈ pre, x ≠ 0) (hc0 : c ≠ 0)
    (hws : ¬ (c = 32 ∨ c = 9 ∨ c = 10 ∨ c = 13)) (hal : ¬ isalpha c)
    (h91 : c ≠ 91) (h93 : c ≠ 93) (hlen : (pre ++ c :: rest).length < UINT_SIZE) :
    ∀ (fuel p : Nat) (acc : List Token), p ≤ pre.length →
      lexLoop uninit (pre ++ c :: rest) fuel (scanAt (pre ++ c :: rest) p) acc = none := by
  intro fuel
  induction fuel with
  | zero => intro p acc _; rfl
  | succ f ih =>
    intro p acc hp
    have hx0 : (scanAt (pre ++ c :: rest) p).currentChar ≠ 0 := by
      rcases getD_prefix_or pre rest c p hp with ⟨_, h⟩ | ⟨_, h⟩
      · simpa only [scanAt, h] using hc0
      · exact hpre _ h
    have hlt : (scanAt (pre ++ c :: rest) p).currentChar ≠ c → p < pre.length := by
      intro hne
      rcases getD_prefix_or pre rest c p hp with ⟨_, h⟩ | ⟨h, _⟩
      · exact absurd h hne
      · exact h
    have hadv : p < pre.length →
        advance (scanAt (pre ++ c :: rest) p) (pre ++ c :: rest)
          = scanAt (pre ++ c :: rest) (p + 1) :=
      fun h => advance_scanAt _ p (by simp; omega) hlen
    rw [lexLoop_succ, if_pos hx0]
    split
    · rename_i h
      have hp' := hlt (fun e => hws (e ▸ h))
      rw [hadv hp']; exact ih _ _ hp'
    · split
      · rename_i h
        have hp' := hlt (fun e => hal (e ▸ h))
        rcases accumulate_before pre rest c hal hlen f p [] hp with hn | ⟨w, p', hp'', hs⟩
        · simp only [makeToken, hn]
        · simp only [makeToken, hs]; exact ih _ _ hp''
      · split
        · rename_i h
          have hp' := hlt (fun e => h91 (e ▸ h))
          rw [hadv hp']; exact ih _ _ hp'
        · split
          · rename_i h
            have hp' := hlt (fun e => h93 (e ▸ h))
            rw [hadv hp']; exact ih _ _ hp'
          · exact ih _ _ hp

/-- The lexer does not return on a source shorter than `2 ^ 32` bytes that
holds, before any zero byte, a non-zero byte that is neither whitespace, nor a
letter, nor `[`, nor `]`: for every amount of fuel the result is `none`. -/
theorem lex_hangs_on_other_byte (uninit : TokenType) (pre rest : List Nat) (c : Nat)
    (hpre : ∀ x ∈ pre, x ≠ 0) (hc0 : c ≠ 0)
    (hws : ¬ (c = 32 ∨ c = 9 ∨ c = 10 ∨ c = 13)) (hal : ¬ isalpha c)
    (h91 : c ≠ 91) (h93 : c ≠ 93) (hlen : (pre ++ c :: rest).length < UINT_SIZE)
    (fuel : Nat) :
    lex uninit (pre ++ c :: rest) fuel = none := by
  rw [lex_eq_lexLoop]
  exact lexLoop_before_stuck uninit pre rest c hpre hc0 hws hal h91 h93 hlen fuel 0 []
    (Nat.zero_le _)

/-- An instance of `lex_hangs_on_other_byte`: the source `[not] 1` with the
digit `1` at its end, with fuel 1000. -/
theorem lex_hangs_on_other_byte_witness :
    lex INVALID (bytes "[not] 1") 1000 = none :=
  lex_hangs_on_other_byte INVALID (bytes "[not] ") [] 49 (by decide) (by decide)
    (by decide) (by decide) (by decide) (by decide) (by decide) 1000

/-! ## The lexer as a function of the text: agreement with `lex` -/

theorem letters_append_afterLetters (l : List Nat) : letters l ++ afterLetters l = l :=
  List.takeWhile_append_dropWhile _ l

theorem letters_isalpha (l : List Nat) : ∀ c ∈ letters l, isalpha c := by
  induction l with
  | nil => intro c h; simp [letters] at h
  | cons a cs ih =>
    intro c h
    by_cases ha : isalpha a
    · simp only [letters, List.takeWhile_cons, ha, decide_True, if_true] at h
      rcases List.mem_cons.1 h with rfl | h'
      · exact ha
      · exact ih c h'
    · simp [letters, List.takeWhile_cons, ha] at h

theorem afterLetters_head (l : List Nat) : ¬ isalpha ((afterLetters l).headD 0) := by
  induction l with
  | nil => decide
  | cons a cs ih =>
    by_cases ha : isalpha a
    · simpa only [afterLetters, List.dropWhile_cons, ha, decide_True, if_true] using ih
    · simp [afterLetters, List.dropWhile_cons, ha]

theorem lexList_cons (uninit : TokenType) (c : Nat) (cs : List Nat) :
    lexList uninit (c :: cs) =
      if c = 0 then some []
      else if c = 32 ∨ c = 9 ∨ c = 10 ∨ c = 13 then lexList uninit cs
      else if isalpha c then
        (lexList uninit (afterLetters cs)).map
          (fun ts => { type := keyword uninit (c :: letters cs) } :: ts)
      else if c = 91 then (lexList uninit cs).map (fun ts => { type := BEG_LOOP } :: ts)
      else if c = 93 then (lexList uninit cs).map (fun ts => { type := END_LOOP } :: ts)
      else none := by
  rw [lexList]

/-- The scan loop of `lex`, entered at the position `pre.length` of a source
`pre ++ suf` shorter than `2 ^ 32` bytes with fuel of at least the length of
`suf` plus 2, appends the tokens of `suf`. -/
theorem lexLoop_eq_lexList (uninit : TokenType) (src : List Nat) (hlen : src.length < UINT_SIZE) :
    ∀ (n : Nat) (pre suf : List Nat) (acc : List Token) (fuel : Nat),
      suf.length ≤ n → src = pre ++ suf → suf.length + 2 ≤ fuel →
      lexLoop uninit src fuel (scanAt src pre.length) acc
        = (lexList uninit suf).map (fun ts => acc ++ ts) := by
  intro n
  induction n with
  | zero =>
    intro pre suf acc fuel hn hsrc hfuel
    obtain rfl : suf = [] := List.length_eq_zero.1 (by omega)
    obtain ⟨f, rfl⟩ : ∃ f, fuel = f + 1 := ⟨fuel - 1, by omega⟩
    rw [lexLoop_sentinel uninit src f pre.length acc (by rw [hsrc]; simp), lexList]
    simp
  | succ n ih =>
    intro pre suf acc fuel hn hsrc hfuel
    cases suf with
    | nil =>
      obtain ⟨f, rfl⟩ : ∃ f, fuel = f + 1 := ⟨fuel - 1, by omega⟩
      rw [lexLoop_sentinel uninit src f pre.length acc (by rw [hsrc]; simp), lexList]
      simp
    | cons c cs =>
      simp only [List.length_cons] at hn hfuel
      have hcur : scanAt src pre.length = { position := pre.length, currentChar := c } := by
        simp only [scanAt, hsrc, getD_append_cons]
      rw [lexList_cons]
      by_cases hc0 : c = 0
      · obtain ⟨f, rfl⟩ : ∃ f, fuel = f + 1 := ⟨fuel - 1, by omega⟩
        rw [if_pos hc0, hcur, lexLoop_succ]
        simp [hc0]
      rw [if_neg hc0]
      by_cases hws : c = 32 ∨ c = 9 ∨ c = 10 ∨ c = 13
      · obtain ⟨f, rfl⟩ : ∃ f, fuel = f + 1 := ⟨fuel - 1, by omega⟩
        rw [if_pos hws, lexLoop_space uninit src hlen pre cs c f acc hsrc hws,
          show pre.length + 1 = (pre ++ [c]).length by simp]
        exact ih (pre ++ [c]) cs acc f (by omega) (by rw [hsrc]; simp) (by omega)
      rw [if_neg hws]
      by_cases hal : isalpha c
      · have hsplit : cs = letters cs ++ afterLetters cs := (letters_append_afterLetters cs).symm
        have hl : cs.length = (letters cs).length + (afterLetters cs).length := by
          conv_lhs => rw [hsplit]
          simp
        have hwl : (c :: letters cs).length = (letters cs).length + 1 := rfl
        obtain ⟨f, rfl⟩ : ∃ f, fuel = f + (c :: letters cs).length + 1 + 1 :=
          ⟨fuel - (c :: letters cs).length - 2, by omega⟩
        rw [if_pos hal, lexLoop_word uninit src hlen pre (c :: letters cs) (afterLetters cs) f acc
            (by rw [hsrc]; simp [letters_append_afterLetters]) (by simp)
            (fun x hx => by
              rcases List.mem_cons.1 hx with rfl | hx'
              · exact hal
              · exact letters_isalpha cs x hx')
            (afterLetters_head cs),
          show pre.length + (c :: letters cs).length = (pre ++ c :: letters cs).length by simp,
          ih (pre ++ c :: letters cs) (afterLetters cs) _ _ (by omega)
            (by rw [hsrc]; simp [letters_append_afterLetters])
            (by omega)]
        cases lexList uninit (afterLetters cs) <;> simp
      rw [if_neg hal]
      by_cases h91 : c = 91
      · obtain ⟨f, rfl⟩ : ∃ f, fuel = f + 1 := ⟨fuel - 1, by omega⟩
        rw [if_pos h91, lexLoop_bracket uninit src hlen pre cs c f acc hsrc (Or.inl h91),
          show pre.length + 1 = (pre ++ [c]).length by simp,
          ih (pre ++ [c]) cs _ f (by omega) (by rw [hsrc]; simp) (by omega), if_pos h91]
        cases lexList uninit cs <;> simp
      rw [if_neg h91]
      by_cases h93 : c = 93
      · obtain ⟨f, rfl⟩ : ∃ f, fuel = f + 1 := ⟨fuel - 1, by omega⟩
        rw [if_pos h93, lexLoop_bracket uninit src hlen pre cs c f acc hsrc (Or.inr h93),
          show pre.length + 1 = (pre ++ [c]).length by simp,
          ih (pre ++ [c]) cs _ f (by omega) (by rw [hsrc]; simp) (by omega), if_neg h91]
        cases lexList uninit cs <;> simp
      rw [if_neg h93, hcur, lexLoop_no_branch uninit src pre.length c hc0 hws hal h91 h93]
      rfl

/-- On a source shorter than `2 ^ 32` bytes, with fuel of at least its length
plus 2, `lex` yields the tokens that `lexList` gives. -/
theorem lex_eq_lexList (uninit : TokenType) (src : List Nat) (hlen : src.length < UINT_SIZE)
    (fuel : Nat) (hfuel : src.length + 2 ≤ fuel) :
    lex uninit src fuel = lexList uninit src := by
  rw [lex_eq_lexLoop]
  have := lexLoop_eq_lexList uninit src hlen src.length [] src [] fuel (Nat.le_refl _) rfl hfuel
  rw [List.length_nil] at this
  rw [this]
  cases lexList uninit src <;> simp

/-- An instance of `lex_eq_lexList`: the source `USE [i]` with fuel 9. -/
theorem lex_eq_lexList_witness :
    lex INVALID (bytes "USE [i]") 9 = lexList INVALID (bytes "USE [i]") :=
  lex_eq_lexList INVALID (bytes "USE [i]") (by decide) 9 (by decide)

/-! ## Runs of the step loop -/

theorem runFrom_succ (tokens : List Token) (fuel : Nat) (s : State) :
    runFrom tokens (fuel + 1) s =
      if s.i < tokens.length then
        match step tokens fuel s with
        | Step.next s => runFrom tokens fuel s
        | Step.stop o s => some (o, s)
        | Step.timeout => none
      else some (Outcome.normal, s) := rfl

/-- One turn of the step loop on a token whose dispatch goes on. -/
theorem runFrom_next (tokens : List Token) (fuel : Nat) (s s' : State) (t : Token)
    (ht : tokens.get? s.i = some t) (hd : dispatch tokens fuel t s = Step.next s') :
    runFrom tokens (fuel + 1) s
      = runFrom tokens fuel { s' with i := (s'.i + 1) % UINT_SIZE } := by
  have hi : s.i < tokens.length := by
    rcases Nat.lt_or_ge s.i tokens.length with h | h
    · exact h
    · rw [List.get?_eq_none.2 h] at ht; cases ht
  rw [runFrom_succ, if_pos hi]
  simp only [step, ht, hd]

/-- A block of `n` tokens `ADD_PTR` that keeps the cursor at or below 30000
adds `n` to the cursor and to the instruction index. -/
theorem runFrom_add_ptr (tokens : List Token) :
    ∀ (n fuel : Nat) (s : State),
      (∀ k, k < n → tokens.get? (s.i + k) = some { type := ADD_PTR }) →
      s.ptr + n ≤ 30000 → s.i + n < UINT_SIZE →
      runFrom tokens (fuel + n) s
        = runFrom tokens fuel { s with ptr := s.ptr + n, i := s.i + n } := by
  intro n
  induction n with
  | zero => intro fuel s _ _ _; rfl
  | succ n ih =>
    intro fuel s htok hptr hi
    have hd : dispatch tokens (fuel + n) { type := ADD_PTR } s
        = Step.next { s with ptr := s.ptr + 1 } := by
      have hm : (s.ptr + 1) % UINT_SIZE = s.ptr + 1 := by unfold UINT_SIZE; omega
      have hle : ¬ (s.ptr + 1 > 30000) := by omega
      simp only [dispatch, reduceCtorEq, if_false, if_true, hm, CELLS_END, hle]
    have hm : (s.i + 1) % UINT_SIZE = s.i + 1 := Nat.mod_eq_of_lt (by omega)
    rw [show fuel + (n + 1) = fuel + n + 1 by omega,
      runFrom_next tokens (fuel + n) s _ _ (htok 0 (by omega)) hd]
    simp only [hm]
    rw [ih fuel _ (fun k hk => by
        have := htok (k + 1) (by omega)
        simpa only [show s.i + 1 + k = s.i + (k + 1) by omega] using this)
      (by simp only; omega) (by simp only; omega)]
    simp only [show s.ptr + 1 + n = s.ptr + (n + 1) by omega,
      show s.i + 1 + n = s.i + (n + 1) by omega]

theorem get?_replicate_append_left (n k : Nat) (a : Token) (l : List Token) (hk : k < n) :
    (List.replicate n a ++ l).get? k = some a := by
  rw [List.get?_eq_getElem?, List.getElem?_append_left (by simpa using hk)]
  simp [hk]

theorem get?_replicate_append_right (n k : Nat) (a : Token) (l : List Token) :
    (List.replicate n a ++ l).get? (n + k) = l.get? k := by
  rw [List.get?_eq_getElem?, List.getElem?_append_right (by simp)]
  simp

/-- A program that begins with `n` tokens `ADD_PTR`, `n` at most 30000, reaches
the cursor `n` at the instruction index `n`. -/
theorem parse_add_ptr_block (n : Nat) (rest : List Token) (input : List Int) (fuel : Nat)
    (hn : n ≤ 30000) :
    parse (List.replicate n { type := ADD_PTR } ++ rest) input (fuel + n)
      = runFrom (List.replicate n { type := ADD_PTR } ++ rest) fuel
          { initState input with ptr := n, i := n } := by
  have h := runFrom_add_ptr (List.replicate n { type := ADD_PTR } ++ rest) n fuel
    (initState input)
    (fun k hk => by
      have h0 : (initState input).i + k = k := Nat.zero_add k
      rw [h0]; exact get?_replicate_append_left n k _ rest hk)
    (by have h0 : (initState input).ptr = 0 := rfl
        omega)
    (by have h0 : (initState input).i = 0 := rfl
        unfold UINT_SIZE; omega)
  have h0 : (initState input).ptr + n = n := Nat.zero_add n
  have h1 : (initState input).i + n = n := Nat.zero_add n
  rw [h0, h1] at h
  exact h

/-- After `n = 30000` tokens `ADD_PTR`, the tokens `ADD_PTR`, `SUB_PTR` leave the
cursor at `4294967295`. -/
theorem arch_block_then_back (n : Nat) (hn : n = 30000) :
    ∃ s, parse (List.replicate n { type := ADD_PTR } ++ [{ type := ADD_PTR }, { type := SUB_PTR }])
        [] (3 + n) = some (Outcome.normal, s) ∧ s.ptr = 4294967295 := by
  have hg1 := get?_replicate_append_right n 0 (Token.mk ADD_PTR) [Token.mk ADD_PTR, Token.mk SUB_PTR]
  have hg2 := get?_replicate_append_right n 1 (Token.mk ADD_PTR) [Token.mk ADD_PTR, Token.mk SUB_PTR]
  have hlen : (List.replicate n (Token.mk ADD_PTR)
      ++ [Token.mk ADD_PTR, Token.mk SUB_PTR]).length = n + 2 := by simp
  refine ⟨{ initState [] with ptr := 4294967295, i := n + 2 }, ?_, rfl⟩
  have hd1 : dispatch (List.replicate n (Token.mk ADD_PTR) ++ [Token.mk ADD_PTR, Token.mk SUB_PTR])
      2 (Token.mk ADD_PTR) { initState [] with ptr := n, i := n }
      = Step.next { initState [] with ptr := 0, i := n } := by
    subst hn; rfl
  have hm1 : (n + 1) % UINT_SIZE = n + 1 := by subst hn; rfl
  have hm2 : (n + 1 + 1) % UINT_SIZE = n + 2 := by subst hn; rfl
  rw [parse_add_ptr_block n _ [] 3 (by omega),
    runFrom_next _ 2 _ _ _ (by simpa using hg1) hd1]
  simp only [hm1]
  have hd2 : dispatch (List.replicate n (Token.mk ADD_PTR) ++ [Token.mk ADD_PTR, Token.mk SUB_PTR])
      1 (Token.mk SUB_PTR) { initState [] with ptr := 0, i := n + 1 }
      = Step.next { initState [] with ptr := 4294967295, i := n + 1 } := by
    simp [dispatch, UINT_SIZE, CELLS_BEGIN]
  rw [runFrom_next _ 1 _ _ _ (by simpa using hg2) hd2]
  simp only [hm2]
  rw [runFrom_succ, hlen, if_neg (by simp)]

/-- Claim C10 (what the code does). With the cursor at 30000, `ADD_PTR` then
`SUB_PTR` leaves the cursor at `4294967295`, not at 30000; so the program of
30000 tokens `ADD_PTR` followed by `ADD_PTR`, `SUB_PTR`, run from the initial
state, ends normally with the cursor at `4294967295`. -/
theorem add_then_sub_ptr_at_30000 :
    (∃ s1 s2, dispatch [] 0 { type := ADD_PTR } { initState [] with ptr := 30000 } = Step.next s1
      ∧ dispatch [] 0 { type := SUB_PTR } s1 = Step.next s2 ∧ s2.ptr = 4294967295)
    ∧ (∃ s, parse (List.replicate 30000 { type := ADD_PTR }
          ++ [{ type := ADD_PTR }, { type := SUB_PTR }]) [] 30003 = some (Outcome.normal, s)
        ∧ s.ptr = 4294967295) :=
  ⟨⟨_, _, rfl, rfl, by decide⟩, arch_block_then_back 30000 rfl⟩

/-! ## The `INPUT` branch, the size of the tape and the forward scan past the end -/

/-- Claim C11 (what the code does). The one-token program `i`, run from the
initial state with the input integer `-1`, ends normally with the cell 0
holding 0, not 256; with the input 257 it holds 0 and with the input 256 it
holds 256. -/
theorem input_minus_one_stores_zero :
    (∃ s, parse [{ type := INPUT }] [-1] 2 = some (Outcome.normal, s) ∧ s.memory 0 = 0)
    ∧ (∃ s, parse [{ type := INPUT }] [257] 2 = some (Outcome.normal, s) ∧ s.memory 0 = 0)
    ∧ (∃ s, parse [{ type := INPUT }] [256] 2 = some (Outcome.normal, s) ∧ s.memory 0 = 256) :=
  ⟨⟨_, rfl, by decide⟩, ⟨_, rfl, by decide⟩, ⟨_, rfl, by decide⟩⟩

/-- After `n = 30000` tokens `ADD_PTR` the cursor is 30000 and the next token
`ADD_CELL` accesses the vector outside its 30000 elements. -/
theorem arch_block_then_use (n : Nat) (hn : n = 30000) :
    ∃ s, parse (List.replicate n { type := ADD_PTR } ++ [{ type := ADD_CELL }]) [] (2 + n)
        = some (Outcome.badAccess, s) ∧ s.ptr = 30000 := by
  have hg := get?_replicate_append_right n 0 (Token.mk ADD_PTR) [Token.mk ADD_CELL]
  have hlen : (List.replicate n (Token.mk ADD_PTR) ++ [Token.mk ADD_CELL]).length = n + 1 := by
    simp
  refine ⟨{ initState [] with ptr := n, i := n }, ?_, hn⟩
  have hd : dispatch (List.replicate n (Token.mk ADD_PTR) ++ [Token.mk ADD_CELL])
      1 (Token.mk ADD_CELL) { initState [] with ptr := n, i := n }
      = Step.stop Outcome.badAccess { initState [] with ptr := n, i := n } := by
    subst hn; rfl
  rw [parse_add_ptr_block n _ [] 2 (by omega), runFrom_succ, hlen,
    if_pos (show n < n + 1 by omega)]
  simp only [step]
  simp only [Nat.add_zero] at hg
  rw [hg]
  simp only [List.get?, hd]

/-- Claim C12 (what the code does). The vector `memory` has 30000 elements,
not 30001: the program of 30000 tokens `ADD_PTR` followed by `ADD_CELL` reaches
the cursor 30000 and its `ADD_CELL` accesses `memory[30000]`, outside the
vector. -/
theorem tape_has_30000_cells :
    MEMORY_SIZE = 30000
    ∧ (∃ s, parse (List.replicate 30000 { type := ADD_PTR } ++ [{ type := ADD_CELL }]) [] 30002
        = some (Outcome.badAccess, s) ∧ s.ptr = 30000) :=
  ⟨rfl, arch_block_then_use 30000 rfl⟩

/-- Claim C14 (what the code does). The one-token program `[`, run from the
initial state, stops in the forward scan on the call `tokens.at(1)`, which
throws `std::out_of_range`: it does not reach the diagnostic
`ERR: Loop went out of scope.`  The same holds for the program `[ [ ]`. -/
theorem forward_scan_past_end_throws :
    (∃ s, parse [{ type := BEG_LOOP }] [] 2 = some (Outcome.outOfRange, s) ∧ s.i = 1)
    ∧ (∃ s, parse [{ type := BEG_LOOP }, { type := BEG_LOOP }, { type := END_LOOP }] [] 5
        = some (Outcome.outOfRange, s) ∧ s.i = 3) :=
  ⟨⟨_, rfl, rfl⟩, ⟨_, rfl, rfl⟩⟩

/-! ## Bracket scans that find no match -/

theorem scanForward_succ (tokens : List Token) (fuel i : Nat) (openCount : Int) :
    scanForward tokens (fuel + 1) i openCount =
      if openCount ≠ 0 then
        if (i + 1) % UINT_SIZE = MINUS_ONE then
          Scan.stop Outcome.errLoopScope ((i + 1) % UINT_SIZE)
        else
          match tokens.get? ((i + 1) % UINT_SIZE) with
          | none => Scan.stop Outcome.outOfRange ((i + 1) % UINT_SIZE)
          | some t =>
            scanForward tokens fuel ((i + 1) % UINT_SIZE)
              (if t.type = END_LOOP then
                wrapInt ((if t.type = BEG_LOOP then wrapInt (openCount + 1) else openCount) - 1)
              else (if t.type = BEG_LOOP then wrapInt (openCount + 1) else openCount))
      else Scan.found i := rfl

theorem scanBackward_succ (tokens : List Token) (fuel i : Nat) (close : Int) :
    scanBackward tokens (fuel + 1) i close =
      if close ≠ 0 then
        if (i + UINT_SIZE - 1) % UINT_SIZE = MINUS_ONE then
          Scan.stop Outcome.errLoopScope ((i + UINT_SIZE - 1) % UINT_SIZE)
        else
          match tokens.get? ((i + UINT_SIZE - 1) % UINT_SIZE) with
          | none => Scan.stop Outcome.outOfRange ((i + UINT_SIZE - 1) % UINT_SIZE)
          | some t =>
            scanBackward tokens fuel ((i + UINT_SIZE - 1) % UINT_SIZE)
              (if t.type = BEG_LOOP then
                wrapInt ((if t.type = END_LOOP then wrapInt (close + 1) else close) - 1)
              else (if t.type = END_LOOP then wrapInt (close + 1) else close))
      else Scan.found i := rfl

/-- With enough fuel the forward scan, started inside the token sequence,
either finds an index inside the sequence or stops on `tokens.at` one past the
last token. -/
theorem scanForward_result (tokens : List Token) (hlen : tokens.length < MINUS_ONE) :
    ∀ (fuel i : Nat) (d : Int), i < tokens.length → tokens.length - i + 1 ≤ fuel →
      (∃ q, i ≤ q ∧ q < tokens.length ∧ scanForward tokens fuel i d = Scan.found q)
      ∨ scanForward tokens fuel i d = Scan.stop Outcome.outOfRange tokens.length := by
  intro fuel
  induction fuel with
  | zero => intro i d hi hf; omega
  | succ f ih =>
    intro i d hi hf
    rw [scanForward_succ]
    by_cases hd : d ≠ 0
    · have hm : (i + 1) % UINT_SIZE = i + 1 := by
        unfold MINUS_ONE at hlen; unfold UINT_SIZE; omega
      have hne : i + 1 ≠ MINUS_ONE := by omega
      rw [if_pos hd, hm, if_neg hne]
      rcases Nat.lt_or_ge (i + 1) tokens.length with hlt | hge
      · obtain ⟨t, ht⟩ : ∃ t, tokens.get? (i + 1) = some t :=
          ⟨tokens.get ⟨i + 1, hlt⟩, List.get?_eq_get hlt⟩
        simp only [ht]
        rcases ih (i + 1) _ hlt (by omega) with ⟨q, h1, h2, h3⟩ | h
        · exact Or.inl ⟨q, by omega, h2, h3⟩
        · exact Or.inr h
      · have hnone : tokens.get? (i + 1) = none := List.get?_eq_none.2 hge
        have he : i + 1 = tokens.length := by omega
        rw [he] at hnone ⊢
        simp only [hnone]
        exact Or.inr trivial
    · rw [if_neg hd]
      exact Or.inl ⟨i, Nat.le_refl _, hi, rfl⟩

/-- With enough fuel the backward scan, started inside the token sequence,
either finds an index or stops on the test `--i == -1`. -/
theorem scanBackward_result (tokens : List Token) (hlen : tokens.length < MINUS_ONE) :
    ∀ (fuel i : Nat) (d : Int), i < tokens.length → i + 2 ≤ fuel →
      (∃ p, p ≤ i ∧ scanBackward tokens fuel i d = Scan.found p)
      ∨ scanBackward tokens fuel i d = Scan.stop Outcome.errLoopScope MINUS_ONE := by
  intro fuel
  induction fuel with
  | zero => intro i d hi hf; omega
  | succ f ih =>
    intro i d hi hf
    rw [scanBackward_succ]
    by_cases hd : d ≠ 0
    · rw [if_pos hd]
      cases i with
      | zero =>
        have hm : (0 + UINT_SIZE - 1) % UINT_SIZE = MINUS_ONE := by decide
        rw [hm, if_pos rfl]
        exact Or.inr rfl
      | succ j =>
        have hm : (j + 1 + UINT_SIZE - 1) % UINT_SIZE = j := by
          unfold MINUS_ONE at hlen; unfold UINT_SIZE; omega
        have hne : j ≠ MINUS_ONE := by omega
        obtain ⟨t, ht⟩ : ∃ t, tokens.get? j = some t :=
          ⟨tokens.get ⟨j, by omega⟩, List.get?_eq_get (by omega)⟩
        rw [hm, if_neg hne]
        simp only [ht]
        rcases ih j _ (by omega) (by omega) with ⟨p, h1, h2⟩ | h
        · exact Or.inl ⟨p, by omega, h2⟩
        · exact Or.inr h
    · rw [if_neg hd]
      exact Or.inl ⟨i, Nat.le_refl _, rfl⟩

/-! ## What a successful bracket scan has crossed -/

theorem Balanced.append {l1 l2 : List Token} (h1 : Balanced l1) (h2 : Balanced l2) :
    Balanced (l1 ++ l2) := by
  induction h1 with
  | nil => exact h2
  | plain t l ha hb _ ih => exact Balanced.plain t (l ++ l2) ha hb ih
  | loop b r hb _ _ ihr =>
    have := Balanced.loop b (r ++ l2) hb ihr
    simpa using this

theorem drop_of_get? (tokens : List Token) (i : Nat) (t : Token)
    (ht : tokens.get? i = some t) : tokens.drop i = t :: tokens.drop (i + 1) := by
  rw [List.get?_eq_getElem?] at ht
  obtain ⟨h, rfl⟩ := List.getElem?_eq_some.1 ht
  exact List.drop_eq_getElem_cons h

theorem take_of_get? (tokens : List Token) (i : Nat) (t : Token)
    (ht : tokens.get? i = some t) : tokens.take (i + 1) = tokens.take i ++ [t] := by
  rw [List.take_succ, ← List.get?_eq_getElem?, ht]
  rfl

theorem token_eq_of_type (t : Token) (ty : TokenType) (h : t.type = ty) : t = { type := ty } := by
  cases t; cases h; rfl

theorem Closes.cons_plain (t : Token) (d : Nat) (l : List Token) (h1 : t.type ≠ BEG_LOOP)
    (h2 : t.type ≠ END_LOOP) (hd : 1 ≤ d) (h : Closes d l) : Closes d (t :: l) := by
  cases h with
  | zero => omega
  | succ e b l' hb hl => exact Closes.succ e (t :: b) l' (Balanced.plain t b h1 h2 hb) hl

theorem Closes.cons_beg (d : Nat) (l : List Token) (hd : 1 ≤ d) (h : Closes (d + 1) l) :
    Closes d ({ type := BEG_LOOP } :: l) := by
  cases h with
  | succ _ b1 l1 hb1 hl1 =>
    cases hl1 with
    | zero => omega
    | succ e b2 l2 hb2 hl2 =>
      have := Closes.succ e ({ type := BEG_LOOP } :: b1 ++ { type := END_LOOP } :: b2) l2
        (Balanced.loop b1 b2 hb1 hb2) hl2
      simpa using this

theorem Closes.cons_end (d : Nat) (l : List Token) (h : Closes d l) :
    Closes (d + 1) ({ type := END_LOOP } :: l) :=
  Closes.succ d [] l Balanced.nil h

theorem Opens.snoc_plain (t : Token) (d : Nat) (l : List Token) (h1 : t.type ≠ BEG_LOOP)
    (h2 : t.type ≠ END_LOOP) (hd : 1 ≤ d) (h : Opens d l) : Opens d (l ++ [t]) := by
  cases h with
  | zero => omega
  | succ e l' b hl hb =>
    have := Opens.succ e l' (b ++ [t]) hl
      (hb.append (Balanced.plain t [] h1 h2 Balanced.nil))
    simpa using this

theorem Opens.snoc_end (d : Nat) (l : List Token) (hd : 1 ≤ d) (h : Opens (d + 1) l) :
    Opens d (l ++ [{ type := END_LOOP }]) := by
  cases h with
  | succ _ l1 b1 hl1 hb1 =>
    cases hl1 with
    | zero => omega
    | succ e l0 b0 hl0 hb0 =>
      have := Opens.succ e l0 (b0 ++ ({ type := BEG_LOOP } :: b1 ++ { type := END_LOOP } :: [])) hl0
        (hb0.append (Balanced.loop b1 [] hb1 Balanced.nil))
      simpa using this

theorem Opens.snoc_beg (d : Nat) (l : List Token) (h : Opens d l) :
    Opens (d + 1) (l ++ [{ type := BEG_LOOP }]) :=
  Opens.succ d l [] h Balanced.nil

/-- When the forward scan, entered with depth `d`, stops at the index `q`, the
tokens after the entry index up to `q` close `d` brackets. -/
theorem scanForward_sound (tokens : List Token) (hlen : tokens.length < 2147483648) :
    ∀ (fuel i d q : Nat), i < tokens.length → d + (tokens.length - 1 - i) < 2147483648 →
      scanForward tokens fuel i (d : Int) = Scan.found q →
      ∃ l post, Closes d l ∧ tokens.drop (i + 1) = l ++ post ∧ q = i + l.length := by
  intro fuel
  induction fuel with
  | zero => intro i d q _ _ h; cases h
  | succ f ih =>
    intro i d q hi hb h
    rw [scanForward_succ] at h
    by_cases hd : (d : Int) ≠ 0
    · have hd1 : 1 ≤ d := by
        rcases Nat.eq_zero_or_pos d with h0 | h0
        · subst h0; exact absurd rfl hd
        · exact h0
      have hm : (i + 1) % UINT_SIZE = i + 1 := by unfold UINT_SIZE; omega
      have hne : i + 1 ≠ MINUS_ONE := by unfold MINUS_ONE; omega
      rw [if_pos hd, hm, if_neg hne] at h
      cases ht : tokens.get? (i + 1) with
      | none => rw [ht] at h; cases h
      | some t =>
        simp only [ht] at h
        have hi1 : i + 1 < tokens.length := by
          obtain ⟨h', _⟩ := List.get?_eq_some.1 ht; exact h'
        have hdrop := drop_of_get? tokens (i + 1) t ht
        by_cases hB : t.type = BEG_LOOP
        · have hE : t.type ≠ END_LOOP := by rw [hB]; decide
          rw [if_neg hE, if_pos hB, wrapInt_of_range _ (by omega) (by omega)] at h
          obtain ⟨l, post, hc, hdr, hq⟩ := ih (i + 1) (d + 1) q hi1 (by omega)
            (by simpa using h)
          refine ⟨t :: l, post, ?_, ?_, ?_⟩
          · rw [token_eq_of_type t _ hB]; exact Closes.cons_beg d l hd1 hc
          · rw [hdrop, hdr]; rfl
          · simp only [List.length_cons]; omega
        · by_cases hE : t.type = END_LOOP
          · rw [if_pos hE, if_neg hB, wrapInt_of_range _ (by omega) (by omega)] at h
            obtain ⟨e, rfl⟩ : ∃ e, d = e + 1 := ⟨d - 1, by omega⟩
            obtain ⟨l, post, hc, hdr, hq⟩ := ih (i + 1) e q hi1 (by omega)
              (by simpa using h)
            refine ⟨t :: l, post, ?_, ?_, ?_⟩
            · rw [token_eq_of_type t _ hE]; exact Closes.cons_end e l hc
            · rw [hdrop, hdr]; rfl
            · simp only [List.length_cons]; omega
          · rw [if_neg hE, if_neg hB] at h
            obtain ⟨l, post, hc, hdr, hq⟩ := ih (i + 1) d q hi1 (by omega) h
            refine ⟨t :: l, post, Closes.cons_plain t d l hB hE hd1 hc, ?_, ?_⟩
            · rw [hdrop, hdr]; rfl
            · simp only [List.length_cons]; omega
    · rw [if_neg hd] at h
      have h0 : d = 0 := by
        have : (d : Int) = 0 := not_not.1 hd
        exact_mod_cast this
      subst h0
      exact ⟨[], tokens.drop (i + 1), Closes.zero, rfl, by simpa using (Scan.found.inj h).symm⟩

/-- When the backward scan, entered with depth `d`, stops at the index `p`, the
tokens from `p` up to the entry index open `d` brackets. -/
theorem scanBackward_sound (tokens : List Token) :
    ∀ (fuel i d p : Nat), i ≤ tokens.length → d + i < 2147483648 →
      scanBackward tokens fuel i (d : Int) = Scan.found p →
      ∃ pre l, Opens d l ∧ tokens.take i = pre ++ l ∧ p + l.length = i := by
  intro fuel
  induction fuel with
  | zero => intro i d p _ _ h; cases h
  | succ f ih =>
    intro i d p hi hb h
    rw [scanBackward_succ] at h
    by_cases hd : (d : Int) ≠ 0
    · have hd1 : 1 ≤ d := by
        rcases Nat.eq_zero_or_pos d with h0 | h0
        · subst h0; exact absurd rfl hd
        · exact h0
      rw [if_pos hd] at h
      cases i with
      | zero =>
        have hm : (0 + UINT_SIZE - 1) % UINT_SIZE = MINUS_ONE := by decide
        rw [hm, if_pos rfl] at h
        cases h
      | succ j =>
        have hm : (j + 1 + UINT_SIZE - 1) % UINT_SIZE = j := by unfold UINT_SIZE; omega
        have hne : j ≠ MINUS_ONE := by unfold MINUS_ONE; omega
        rw [hm, if_neg hne] at h
        cases ht : tokens.get? j with
        | none => simp only [ht] at h; cases h
        | some t =>
          simp only [ht] at h
          have htake := take_of_get? tokens j t ht
          by_cases hE : t.type = END_LOOP
          · have hB : t.type ≠ BEG_LOOP := by rw [hE]; decide
            rw [if_neg hB, if_pos hE, wrapInt_of_range _ (by omega) (by omega)] at h
            obtain ⟨pre, l, ho, htk, hp⟩ := ih j (d + 1) p (by omega) (by omega)
              (by simpa using h)
            refine ⟨pre, l ++ [t], ?_, ?_, ?_⟩
            · rw [token_eq_of_type t _ hE]; exact Opens.snoc_end d l hd1 ho
            · rw [htake, htk, List.append_assoc]
            · simp only [List.length_append, List.length_singleton]; omega
          · by_cases hB : t.type = BEG_LOOP
            · rw [if_pos hB, if_neg hE, wrapInt_of_range _ (by omega) (by omega)] at h
              obtain ⟨e, rfl⟩ : ∃ e, d = e + 1 := ⟨d - 1, by omega⟩
              obtain ⟨pre, l, ho, htk, hp⟩ := ih j e p (by omega) (by omega)
                (by simpa using h)
              refine ⟨pre, l ++ [t], ?_, ?_, ?_⟩
              · rw [token_eq_of_type t _ hB]; exact Opens.snoc_beg e l ho
              · rw [htake, htk, List.append_assoc]
              · simp only [List.length_append, List.length_singleton]; omega
            · rw [if_neg hB, if_neg hE] at h
              obtain ⟨pre, l, ho, htk, hp⟩ := ih j d p (by omega) (by omega) h
              refine ⟨pre, l ++ [t], Opens.snoc_plain t d l hB hE hd1 ho, ?_, ?_⟩
              · rw [htake, htk, List.append_assoc]
              · simp only [List.length_append, List.length_singleton]; omega
    · rw [if_neg hd] at h
      have h0 : d = 0 := by
        have : (d : Int) = 0 := not_not.1 hd
        exact_mod_cast this
      subst h0
      exact ⟨tokens.take i, [], Opens.zero, by simp, by simpa using (Scan.found.inj h).symm⟩

/-- The index at which the forward scan from a `BEG_LOOP` stops holds the
`END_LOOP` that matches it. -/
theorem scanForward_found_matches (tokens : List Token) (hlen : tokens.length < 2147483648)
    (fuel p q : Nat) (hp : tokens.get? p = some { type := BEG_LOOP })
    (h : scanForward tokens fuel p 1 = Scan.found q) : Matches tokens p q := by
  have hpl : p < tokens.length := by
    rw [List.get?_eq_getElem?] at hp
    obtain ⟨h', _⟩ := List.getElem?_eq_some.1 hp; exact h'
  obtain ⟨l, post, hc, hdr, hq⟩ := scanForward_sound tokens hlen fuel p 1 q hpl (by omega)
    (by simpa using h)
  cases hc with
  | succ _ b l0 hb hl0 =>
    cases hl0 with
    | zero =>
      refine ⟨tokens.take p, b, post, ?_, ?_, ?_, hb⟩
      · conv_lhs => rw [← List.take_append_drop p tokens, drop_of_get? tokens p _ hp, hdr]
        simp
      · rw [List.length_take]; omega
      · simp only [List.length_append, List.length_cons, List.length_nil] at hq; omega

/-- The index at which the backward scan from an `END_LOOP` stops holds the
`BEG_LOOP` that matches it. -/
theorem scanBackward_found_matches (tokens : List Token) (hlen : tokens.length < 2147483648)
    (fuel p q : Nat) (hq : tokens.get? q = some { type := END_LOOP })
    (h : scanBackward tokens fuel q 1 = Scan.found p) : Matches tokens p q := by
  have hql : q < tokens.length := by
    rw [List.get?_eq_getElem?] at hq
    obtain ⟨h', _⟩ := List.getElem?_eq_some.1 hq; exact h'
  obtain ⟨pre, l, ho, htk, hpl⟩ := scanBackward_sound tokens fuel q 1 p (by omega)
    (by omega) (by simpa using h)
  cases ho with
  | succ _ l0 b hl0 hb =>
    cases hl0 with
    | zero =>
      have hlenpre : pre.length = p := by
        have := congrArg List.length htk
        simp only [List.length_take, List.length_append, List.length_cons, List.length_nil] at this hpl
        omega
      refine ⟨pre, b, tokens.drop (q + 1), ?_, hlenpre, ?_, hb⟩
      · conv_lhs => rw [← List.take_append_drop q tokens, drop_of_get? tokens q _ hq, htk]
        simp
      · simp only [List.length_append, List.length_cons, List.length_nil] at hpl; omega

/-- From a `BEG_LOOP` that no `END_LOOP` matches, the forward scan runs past
the last token and stops on `tokens.at`. -/
theorem scanForward_unmatched (tokens : List Token) (hlen : tokens.length < 2147483648)
    (fuel p : Nat) (hp : tokens.get? p = some { type := BEG_LOOP })
    (hno : ¬ ∃ q, Matches tokens p q) (hfuel : tokens.length + 1 ≤ fuel) :
    scanForward tokens fuel p 1 = Scan.stop Outcome.outOfRange tokens.length := by
  have hpl : p < tokens.length := by
    rw [List.get?_eq_getElem?] at hp
    obtain ⟨h', _⟩ := List.getElem?_eq_some.1 hp; exact h'
  rcases scanForward_result tokens (by unfold MINUS_ONE; omega) fuel p 1 hpl (by omega)
    with ⟨q, _, _, h⟩ | h
  · exact absurd ⟨q, scanForward_found_matches tokens hlen fuel p q hp h⟩ hno
  · exact h

/-- From an `END_LOOP` that no `BEG_LOOP` matches, the backward scan runs below
index 0 and stops on the test `--i == -1`. -/
theorem scanBackward_unmatched (tokens : List Token) (hlen : tokens.length < 2147483648)
    (fuel q : Nat) (hq : tokens.get? q = some { type := END_LOOP })
    (hno : ¬ ∃ p, Matches tokens p q) (hfuel : tokens.length + 1 ≤ fuel) :
    scanBackward tokens fuel q 1 = Scan.stop Outcome.errLoopScope MINUS_ONE := by
  have hql : q < tokens.length := by
    rw [List.get?_eq_getElem?] at hq
    obtain ⟨h', _⟩ := List.getElem?_eq_some.1 hq; exact h'
  rcases scanBackward_result tokens (by unfold MINUS_ONE; omega) fuel q 1 hql (by omega)
    with ⟨p, _, h⟩ | h
  · exact absurd ⟨p, scanBackward_found_matches tokens hlen fuel p q hq h⟩ hno
  · exact h

/-! ## Unmatched brackets -/

theorem Matches.mem {tokens : List Token} {p q : Nat} (h : Matches tokens p q) :
    ({ type := BEG_LOOP } : Token) ∈ tokens ∧ ({ type := END_LOOP } : Token) ∈ tokens := by
  obtain ⟨pre, body, post, htok, _, _, _⟩ := h
  rw [htok]
  constructor <;> simp

theorem runFrom_stop (tokens : List Token) (fuel : Nat) (s s' : State) (o : Outcome)
    (hi : s.i < tokens.length) (hs : step tokens fuel s = Step.stop o s') :
    runFrom tokens (fuel + 1) s = some (o, s') := by
  rw [runFrom_succ, if_pos hi, hs]

theorem lt_length_of_get? (tokens : List Token) (i : Nat) (t : Token)
    (h : tokens.get? i = some t) : i < tokens.length := by
  rw [List.get?_eq_getElem?] at h
  obtain ⟨h', _⟩ := List.getElem?_eq_some.1 h; exact h'

/-- Claim C15. An `END_LOOP` executed on a non-zero cell that no `BEG_LOOP`
matches makes the backward scan run below index 0 (the index wraps to
`4294967295`) and the executor stop with `ERR: Loop went out of scope.`: the
step, and the run from that state, end in `errLoopScope`. -/
theorem backward_scan_underflow (tokens : List Token) (hlen : tokens.length < 2147483648)
    (fuel : Nat) (hfuel : tokens.length + 1 ≤ fuel) (s : State) (hptr : s.ptr < MEMORY_SIZE)
    (hget : tokens.get? s.i = some { type := END_LOOP }) (hnz : s.memory s.ptr ≠ 0)
    (hno : ¬ ∃ p, Matches tokens p s.i) :
    scanBackward tokens fuel s.i 1 = Scan.stop Outcome.errLoopScope MINUS_ONE
    ∧ step tokens fuel s = Step.stop Outcome.errLoopScope { s with i := MINUS_ONE }
    ∧ runFrom tokens (fuel + 1) s = some (Outcome.errLoopScope, { s with i := MINUS_ONE }) := by
  have hs := scanBackward_unmatched tokens hlen fuel s.i hget hno hfuel
  have hd : dispatch tokens fuel { type := END_LOOP } s
      = Step.stop Outcome.errLoopScope { s with i := MINUS_ONE } := by
    simp [dispatch, hptr, hnz, hs]
  have hst : step tokens fuel s = Step.stop Outcome.errLoopScope { s with i := MINUS_ONE } := by
    simp only [step, hget, hd]
  exact ⟨hs, hst, runFrom_stop tokens fuel s _ _ (lt_length_of_get? tokens s.i _ hget) hst⟩

/-- Claim C15 (an instance). In the program `use ]`, the `END_LOOP` at index 1,
executed on the cell holding 1, ends the run in `errLoopScope`; so does the
whole program run from the initial state. -/
theorem backward_scan_underflow_witness :
    step [{ type := ADD_CELL }, { type := END_LOOP }] 3
        { initState [] with memory := setCell (fun _ => 0) 0 1, i := 1 }
      = Step.stop Outcome.errLoopScope
          { initState [] with memory := setCell (fun _ => 0) 0 1, i := MINUS_ONE }
    ∧ ∃ s, parse [{ type := ADD_CELL }, { type := END_LOOP }] [] 5
        = some (Outcome.errLoopScope, s) ∧ s.i = MINUS_ONE :=
  ⟨(backward_scan_underflow [{ type := ADD_CELL }, { type := END_LOOP }] (by decide) 3
      (by decide) { initState [] with memory := setCell (fun _ => 0) 0 1, i := 1 }
      (by decide) rfl (by decide) (fun ⟨_, h⟩ => absurd h.mem.1 (by decide))).2.1,
    ⟨_, rfl, rfl⟩⟩

/-- Claim C13 (counterexample). The source `use [ use` lexes to `ADD_CELL`,
`BEG_LOOP`, `ADD_CELL`; no `END_LOOP` matches its `BEG_LOOP`; and the program,
run from the initial state, ends normally with the cell 0 holding 2. -/
theorem unbalanced_program_ends_normally :
    lex INVALID (bytes "use [ use") 11
        = some [{ type := ADD_CELL }, { type := BEG_LOOP }, { type := ADD_CELL }]
    ∧ (¬ ∃ q, Matches [{ type := ADD_CELL }, { type := BEG_LOOP }, { type := ADD_CELL }] 1 q)
    ∧ ∃ s, parse [{ type := ADD_CELL }, { type := BEG_LOOP }, { type := ADD_CELL }] [] 4
        = some (Outcome.normal, s) ∧ s.memory 0 = 2 :=
  ⟨by decide, fun ⟨_, h⟩ => absurd h.mem.2 (by decide), ⟨_, rfl, by decide⟩⟩

/-- Claim C13 (amended). A `BEG_LOOP` executed on a non-zero cell falls through
to the next token, whether or not an `END_LOOP` matches it.  A `BEG_LOOP`
that no `END_LOOP` matches, executed on a zero cell, stops the run there, and
not in normal termination. -/
theorem unmatched_beg_loop (tokens : List Token) (hlen : tokens.length < 2147483648)
    (fuel : Nat) (hfuel : tokens.length + 1 ≤ fuel) (s : State) (hptr : s.ptr < MEMORY_SIZE)
    (hget : tokens.get? s.i = some { type := BEG_LOOP }) :
    (s.memory s.ptr ≠ 0 → step tokens fuel s = Step.next { s with i := s.i + 1 })
    ∧ (s.memory s.ptr = 0 → (¬ ∃ q, Matches tokens s.i q) →
        ∃ o s', step tokens fuel s = Step.stop o s' ∧ o ≠ Outcome.normal
          ∧ runFrom tokens (fuel + 1) s = some (o, s')) := by
  have hi := lt_length_of_get? tokens s.i _ hget
  constructor
  · intro hnz
    have hm : (s.i + 1) % UINT_SIZE = s.i + 1 := by unfold UINT_SIZE; omega
    have hd : dispatch tokens fuel { type := BEG_LOOP } s = Step.next s := by
      simp [dispatch, hptr, hnz]
    simp only [step, hget, hd, hm]
  · intro hz hno
    have hs := scanForward_unmatched tokens hlen fuel s.i hget hno hfuel
    have hd : dispatch tokens fuel { type := BEG_LOOP } s
        = Step.stop Outcome.outOfRange { s with i := tokens.length } := by
      simp [dispatch, hptr, hz, hs]
    have hst : step tokens fuel s
        = Step.stop Outcome.outOfRange { s with i := tokens.length } := by
      simp only [step, hget, hd]
    exact ⟨_, _, hst, by decide, runFrom_stop tokens fuel s _ _ hi hst⟩

/-- Claim C13 (amended, an instance). In the program `use [ use` the
`BEG_LOOP` at index 1, executed on the cell holding 1, is followed by the token
at index 2; in the program `[ use` the `BEG_LOOP` at index 0, executed on the
zero cell of the initial state, stops the run, not in normal termination. -/
theorem unmatched_beg_loop_witness :
    step [{ type := ADD_CELL }, { type := BEG_LOOP }, { type := ADD_CELL }] 4
        { initState [] with memory := setCell (fun _ => 0) 0 1, i := 1 }
      = Step.next { initState [] with memory := setCell (fun _ => 0) 0 1, i := 2 }
    ∧ ∃ o s', step [{ type := BEG_LOOP }, { type := ADD_CELL }] 3 (initState [])
          = Step.stop o s' ∧ o ≠ Outcome.normal
        ∧ runFrom [{ type := BEG_LOOP }, { type := ADD_CELL }] 4 (initState []) = some (o, s') :=
  ⟨(unmatched_beg_loop [{ type := ADD_CELL }, { type := BEG_LOOP }, { type := ADD_CELL }]
      (by decide) 4 (by decide) { initState [] with memory := setCell (fun _ => 0) 0 1, i := 1 }
      (by decide) rfl).1 (by decide),
    (unmatched_beg_loop [{ type := BEG_LOOP }, { type := ADD_CELL }] (by decide) 3 (by decide)
      (initState []) (by decide) rfl).2 rfl (fun ⟨_, h⟩ => absurd h.mem.2 (by decide))⟩

/-! ## The frame of a step -/

theorem readCell_frame (s : State) :
    (∀ k, k ≠ s.ptr → (readCell s).memory k = s.memory k) ∧ (readCell s).ptr = s.ptr := by
  unfold readCell
  split
  · exact ⟨fun _ _ => rfl, rfl⟩
  · split
    · exact ⟨fun k hk => setCell_other _ _ _ _ hk, rfl⟩
    · split
      · exact ⟨fun k hk => setCell_other _ _ _ _ hk, rfl⟩
      · exact ⟨fun k hk => setCell_other _ _ _ _ hk, rfl⟩

/-- The dispatch on a bracket token changes at most the instruction index. -/
theorem dispatch_loop_frame (tokens : List Token) (fuel : Nat) (t : Token) (s : State)
    (hptr : s.ptr < MEMORY_SIZE) (ht : t.type = BEG_LOOP ∨ t.type = END_LOOP) :
    dispatch tokens fuel t s = Step.timeout
    ∨ ∃ j, dispatch tokens fuel t s = Step.next { s with i := j }
      ∨ ∃ o, dispatch tokens fuel t s = Step.stop o { s with i := j } := by
  rcases ht with h | h
  · simp only [dispatch, h, reduceCtorEq, if_false, if_true, hptr]
    split
    · cases scanForward tokens fuel s.i 1 with
      | found j => exact Or.inr ⟨j, Or.inl rfl⟩
      | stop o j => exact Or.inr ⟨j, Or.inr ⟨o, rfl⟩⟩
      | timeout => exact Or.inl rfl
    · exact Or.inr ⟨s.i, Or.inl rfl⟩
  · simp only [dispatch, h, reduceCtorEq, if_false, if_true, hptr]
    split
    · cases scanBackward tokens fuel s.i 1 with
      | found j => exact Or.inr ⟨j, Or.inl rfl⟩
      | stop o j => exact Or.inr ⟨j, Or.inr ⟨o, rfl⟩⟩
      | timeout => exact Or.inl rfl
    · exact Or.inr ⟨s.i, Or.inl rfl⟩

/-- With fuel above the number of tokens, the dispatch on a bracket token inside
the token sequence does not run out of fuel. -/
theorem dispatch_loop_no_timeout (tokens : List Token) (fuel : Nat) (t : Token) (s : State)
    (ht : t.type = BEG_LOOP ∨ t.type = END_LOOP) (hlen : tokens.length < MINUS_ONE)
    (hi : s.i < tokens.length) (hfuel : tokens.length + 1 ≤ fuel) :
    dispatch tokens fuel t s ≠ Step.timeout := by
  rcases ht with h | h
  · simp only [dispatch, h, reduceCtorEq, if_false, if_true]
    split
    · split
      · rcases scanForward_result tokens hlen fuel s.i 1 hi (by omega) with ⟨q, _, _, hq⟩ | hq
        · rw [hq]; exact fun h => Step.noConfusion h
        · rw [hq]; exact fun h => Step.noConfusion h
      · exact fun h => Step.noConfusion h
    · exact fun h => Step.noConfusion h
  · simp only [dispatch, h, reduceCtorEq, if_false, if_true]
    split
    · split
      · rcases scanBackward_result tokens hlen fuel s.i 1 hi (by omega) with ⟨q, _, hq⟩ | hq
        · rw [hq]; exact fun h => Step.noConfusion h
        · rw [hq]; exact fun h => Step.noConfusion h
      · exact fun h => Step.noConfusion h
    · exact fun h => Step.noConfusion h

/-- Claim C19. In a state with the cursor in `[0, 29999]`: `ADD_CELL`,
`SUB_CELL` and `INPUT` go on to a state that differs from the old one in no
cell other than the one under the cursor and has the same cursor; `ADD_PTR` and
`SUB_PTR` go on to a state with the same cells; `OUTPUT` goes on to a state
with the same cells and cursor; `BEG_LOOP` and `END_LOOP` lead (going on or
stopping the program) to a state that differs from the old one at most in the
instruction index, and they do lead to one when the fuel exceeds the number of
tokens. -/
theorem step_frame (tokens : List Token) (fuel : Nat) (s : State) (hptr : s.ptr ≤ 29999) :
    (∀ t : Token, t.type = ADD_CELL ∨ t.type = SUB_CELL ∨ t.type = INPUT →
      ∃ s', dispatch tokens fuel t s = Step.next s'
        ∧ (∀ k, k ≠ s.ptr → s'.memory k = s.memory k) ∧ s'.ptr = s.ptr)
    ∧ (∀ t : Token, t.type = ADD_PTR ∨ t.type = SUB_PTR →
      ∃ s', dispatch tokens fuel t s = Step.next s' ∧ ∀ k, s'.memory k = s.memory k)
    ∧ (∀ t : Token, t.type = OUTPUT →
      ∃ s', dispatch tokens fuel t s = Step.next s'
        ∧ (∀ k, s'.memory k = s.memory k) ∧ s'.ptr = s.ptr)
    ∧ (∀ t : Token, t.type = BEG_LOOP ∨ t.type = END_LOOP →
      (∀ s', (dispatch tokens fuel t s = Step.next s'
            ∨ ∃ o, dispatch tokens fuel t s = Step.stop o s') →
          (∀ k, s'.memory k = s.memory k) ∧ s'.ptr = s.ptr)
      ∧ (tokens.length < MINUS_ONE → s.i < tokens.length → tokens.length + 1 ≤ fuel →
          dispatch tokens fuel t s ≠ Step.timeout)) := by
  have hp : s.ptr < MEMORY_SIZE := by
    have : MEMORY_SIZE = 30000 := rfl
    omega
  refine ⟨?_, ?_, ?_, ?_⟩
  · intro t ht
    rcases ht with h | h | h
    · simp only [dispatch, h, reduceCtorEq, if_false, if_true, hp]
      split
      · exact ⟨_, rfl, fun k hk => by simp [setCell, hk], rfl⟩
      · exact ⟨_, rfl, fun k hk => by simp [setCell, hk], rfl⟩
    · simp only [dispatch, h, reduceCtorEq, if_false, if_true, hp]
      split
      · exact ⟨_, rfl, fun k hk => by simp [setCell, hk], rfl⟩
      · exact ⟨_, rfl, fun k hk => by simp [setCell, hk], rfl⟩
    · have hr := readCell_frame s
      simp only [dispatch, h, reduceCtorEq, if_false, if_true, hp]
      split
      · exact ⟨_, rfl, fun k hk => by
          simp only [setCell, hr.2, hk, if_false]; exact hr.1 k hk, hr.2⟩
      · split
        · exact ⟨_, rfl, fun k hk => by
            simp only [setCell, hr.2, hk, if_false]; exact hr.1 k hk, hr.2⟩
        · exact ⟨_, rfl, hr.1, hr.2⟩
  · intro t ht
    rcases ht with h | h
    · simp only [dispatch, h, reduceCtorEq, if_false, if_true]
      split
      · exact ⟨_, rfl, fun _ => rfl⟩
      · exact ⟨_, rfl, fun _ => rfl⟩
    · simp only [dispatch, h, reduceCtorEq, if_false, if_true]
      split
      · exact ⟨_, rfl, fun _ => rfl⟩
      · exact ⟨_, rfl, fun _ => rfl⟩
  · intro t h
    simp only [dispatch, h, reduceCtorEq, if_false, if_true, hp]
    exact ⟨_, rfl, fun _ => rfl, rfl⟩
  · intro t ht
    refine ⟨?_, dispatch_loop_no_timeout tokens fuel t s ht⟩
    intro s' hs'
    rcases dispatch_loop_frame tokens fuel t s hp ht with hto | ⟨j, hn | ⟨o, hst⟩⟩
    · rcases hs' with h | ⟨o, h⟩
      · rw [hto] at h; cases h
      · rw [hto] at h; cases h
    · rcases hs' with h | ⟨o, h⟩
      · rw [hn] at h; cases h; exact ⟨fun _ => rfl, rfl⟩
      · rw [hn] at h; cases h
    · rcases hs' with h | ⟨o', h⟩
      · rw [hst] at h; cases h
      · rw [hst] at h; cases h; exact ⟨fun _ => rfl, rfl⟩

/-- Claim C19 (an instance). With the cursor at 29999, `ADD_CELL` goes on to a
state in which every cell other than cell 29999 still holds 0 and the cursor is
still 29999. -/
theorem step_frame_witness :
    ∃ s', dispatch [] 0 { type := ADD_CELL } { initState [] with ptr := 29999 } = Step.next s'
      ∧ (∀ k, k ≠ 29999 → s'.memory k = 0) ∧ s'.ptr = 29999 :=
  (step_frame [] 0 { initState [] with ptr := 29999 } (by decide)).1 { type := ADD_CELL }
    (Or.inl rfl)

/-! ## Runs on cell 0 -/

theorem initState_eq_cellState (input : List Int) : initState input = cellState input 0 0 := by
  unfold initState cellState MIN_CELL_SIZE
  congr 1
  funext k
  simp [setCell]

theorem cellState_memory (input : List Int) (v : Int) (j k : Nat) :
    (cellState input v j).memory k = if k = 0 then v else 0 := rfl

/-- `ADD_CELL` on cell 0 holding `v` in `[0, 255]`. -/
theorem dispatch_add_cell_cellState (tokens : List Token) (fuel : Nat) (input : List Int)
    (v : Int) (j : Nat) (h0 : 0 ≤ v) (h1 : v < 256) :
    dispatch tokens fuel { type := ADD_CELL } (cellState input v j)
      = Step.next (cellState input (v + 1) j) := by
  have hw : wrapInt (v + 1) = v + 1 := wrapInt_of_range _ (by omega) (by omega)
  have hu : toUnsigned (v + 1) = (v + 1).toNat := toUnsigned_of_nonneg _ (by omega) (by omega)
  have hp : (0 : Nat) < MEMORY_SIZE := by decide
  have hle : ¬ ((v + 1).toNat > 256) := by omega
  simp only [dispatch, cellState, reduceCtorEq, if_false, if_true, hp, setCell_same, hw, hu,
    MAX_CELL_SIZE, setCell_setCell, hle]

/-- `SUB_CELL` on cell 0 holding `v` in `[1, 256]`. -/
theorem dispatch_sub_cell_cellState (tokens : List Token) (fuel : Nat) (input : List Int)
    (v : Int) (j : Nat) (h0 : 1 ≤ v) (h1 : v ≤ 256) :
    dispatch tokens fuel { type := SUB_CELL } (cellState input v j)
      = Step.next (cellState input (v - 1) j) := by
  have h := sub_cell_decrements tokens fuel (cellState input v j)
    (show (0 : Nat) < MEMORY_SIZE by decide)
    (by simp only [cellState, setCell_same]; omega) (by simp only [cellState, setCell_same]; omega)
  rw [h]
  simp only [cellState, setCell_same, setCell_setCell]

/-- A block of `n` tokens `ADD_CELL` that keeps cell 0 at or below 256 adds `n`
to the cell and to the instruction index. -/
theorem runFrom_add_cell_block (tokens : List Token) (input : List Int) :
    ∀ (n fuel : Nat) (v : Int) (j : Nat),
      (∀ k, k < n → tokens.get? (j + k) = some { type := ADD_CELL }) →
      0 ≤ v → v + n ≤ 256 → j + n < UINT_SIZE →
      runFrom tokens (fuel + n) (cellState input v j)
        = runFrom tokens fuel (cellState input (v + n) (j + n)) := by
  intro n
  induction n with
  | zero => intro fuel v j _ _ _ _; simp
  | succ n ih =>
    intro fuel v j htok h0 h1 hj
    have hm : (j + 1) % UINT_SIZE = j + 1 := Nat.mod_eq_of_lt (by omega)
    push_cast at h1
    rw [show fuel + (n + 1) = fuel + n + 1 by omega,
      runFrom_next tokens (fuel + n) (cellState input v j) _ _ (htok 0 (by omega))
        (dispatch_add_cell_cellState tokens (fuel + n) input v j h0 (by omega))]
    have hs : ({ cellState input (v + 1) j with
        i := ((cellState input (v + 1) j).i + 1) % UINT_SIZE } : State)
        = cellState input (v + 1) (j + 1) := by
      simp only [cellState, hm]
    rw [hs, ih fuel (v + 1) (j + 1) (fun k hk => by
        have := htok (k + 1) (by omega)
        simpa only [show j + 1 + k = j + (k + 1) by omega] using this)
      (by omega) (by omega) (by omega)]
    push_cast
    rw [show v + 1 + (n : Int) = v + ((n : Int) + 1) by omega,
      show j + 1 + n = j + (n + 1) by omega]

/-! ## The dispatch on the bracket tokens -/

theorem dispatch_beg_loop_nonzero (tokens : List Token) (fuel : Nat) (s : State)
    (hptr : s.ptr < MEMORY_SIZE) (hnz : s.memory s.ptr ≠ 0) :
    dispatch tokens fuel { type := BEG_LOOP } s = Step.next s := by
  simp only [dispatch, reduceCtorEq, if_false, if_true, hptr, hnz]

theorem dispatch_beg_loop_found (tokens : List Token) (fuel : Nat) (s : State) (q : Nat)
    (hptr : s.ptr < MEMORY_SIZE) (hz : s.memory s.ptr = 0)
    (hscan : scanForward tokens fuel s.i 1 = Scan.found q) :
    dispatch tokens fuel { type := BEG_LOOP } s = Step.next { s with i := q } := by
  simp only [dispatch, reduceCtorEq, if_false, if_true, hptr, hz, hscan]

theorem dispatch_end_loop_zero (tokens : List Token) (fuel : Nat) (s : State)
    (hptr : s.ptr < MEMORY_SIZE) (hz : s.memory s.ptr = 0) :
    dispatch tokens fuel { type := END_LOOP } s = Step.next s := by
  simp only [dispatch, reduceCtorEq, if_false, if_true, hptr, hz, ne_eq, not_true_eq_false]

theorem dispatch_end_loop_found (tokens : List Token) (fuel : Nat) (s : State) (p : Nat)
    (hptr : s.ptr < MEMORY_SIZE) (hnz : s.memory s.ptr ≠ 0)
    (hscan : scanBackward tokens fuel s.i 1 = Scan.found p) :
    dispatch tokens fuel { type := END_LOOP } s = Step.next { s with i := p } := by
  simp only [dispatch, reduceCtorEq, if_false, if_true, hptr, hnz, ne_eq, not_false_eq_true,
    hscan]

theorem cellState_ptr_lt (input : List Int) (v : Int) (j : Nat) :
    (cellState input v j).ptr < MEMORY_SIZE := by
  show (0 : Nat) < MEMORY_SIZE
  decide

theorem cellState_cell (input : List Int) (v : Int) (j : Nat) :
    (cellState input v j).memory (cellState input v j).ptr = v := rfl

/-! ## The loop-zeroing program -/

theorem zeroingProgram_length (n : Nat) : (zeroingProgram n).length = n + 3 := by
  simp [zeroingProgram]

theorem zeroingProgram_add (n k : Nat) (hk : k < n) :
    (zeroingProgram n).get? k = some { type := ADD_CELL } :=
  get?_replicate_append_left n k _ _ hk

theorem zeroingProgram_beg (n : Nat) :
    (zeroingProgram n).get? n = some { type := BEG_LOOP } :=
  get?_replicate_append_right n 0 _ _

theorem zeroingProgram_sub (n : Nat) :
    (zeroingProgram n).get? (n + 1) = some { type := SUB_CELL } :=
  get?_replicate_append_right n 1 _ _

theorem zeroingProgram_end (n : Nat) :
    (zeroingProgram n).get? (n + 2) = some { type := END_LOOP } :=
  get?_replicate_append_right n 2 _ _

/-- In the loop-zeroing program the backward scan from the `END_LOOP` stops on
the `BEG_LOOP`, with any fuel of at least 3. -/
theorem zeroingProgram_scanBackward (n f : Nat) (hn : n ≤ 256) :
    scanBackward (zeroingProgram n) (f + 3) (n + 2) 1 = Scan.found n := by
  have h1 := scanBackward_step (zeroingProgram n) (f + 2) (n + 1) 1 _ (by decide)
    (by unfold MINUS_ONE; omega) (zeroingProgram_sub n)
  have h2 := scanBackward_step (zeroingProgram n) (f + 1) n 1 _ (by decide)
    (by unfold MINUS_ONE; omega) (zeroingProgram_beg n)
  simp only [reduceCtorEq, if_false, if_true] at h1 h2
  rw [show f + 3 = f + 2 + 1 by omega, show n + 2 = n + 1 + 1 by omega, h1,
    show f + 2 = f + 1 + 1 by omega, h2]
  simp [scanBackward, wrapInt]

/-- In the loop-zeroing program the forward scan from the `BEG_LOOP` stops on
the `END_LOOP`, with any fuel of at least 3. -/
theorem zeroingProgram_scanForward (n f : Nat) (hn : n ≤ 256) :
    scanForward (zeroingProgram n) (f + 3) n 1 = Scan.found (n + 2) := by
  have h1 := scanForward_step (zeroingProgram n) (f + 2) n 1 _ (by decide)
    (by unfold MINUS_ONE; omega) (zeroingProgram_sub n)
  have h2 := scanForward_step (zeroingProgram n) (f + 1) (n + 1) 1 _ (by decide)
    (by unfold MINUS_ONE; omega) (zeroingProgram_end n)
  simp only [reduceCtorEq, if_false, if_true] at h1 h2
  rw [show f + 3 = f + 2 + 1 by omega, h1, show f + 2 = f + 1 + 1 by omega, h2]
  simp [scanForward, wrapInt]

/-- The step loop at the end of the loop-zeroing program returns. -/
theorem zeroingProgram_exit (n f : Nat) (input : List Int) (v : Int) :
    runFrom (zeroingProgram n) (f + 1) (cellState input v (n + 3))
      = some (Outcome.normal, cellState input v (n + 3)) := by
  rw [runFrom_succ, zeroingProgram_length, if_neg (by simp [cellState])]

/-- The loop `[ not ]` of the loop-zeroing program, entered at the `SUB_CELL`
with cell 0 holding `v` in `[1, 256]`, ends with the cell at 0. -/
theorem zeroingProgram_loop (n : Nat) (hn : n ≤ 256) (input : List Int) :
    ∀ (v f : Nat), 1 ≤ v → v ≤ 256 → 3 ≤ f →
      runFrom (zeroingProgram n) (f + 2 * v) (cellState input v (n + 1))
        = some (Outcome.normal, cellState input 0 (n + 3)) := by
  have hm2 : (n + 1 + 1) % UINT_SIZE = n + 2 := by unfold UINT_SIZE; omega
  have hm3 : (n + 2 + 1) % UINT_SIZE = n + 3 := by unfold UINT_SIZE; omega
  have hm1 : (n + 1) % UINT_SIZE = n + 1 := by unfold UINT_SIZE; omega
  intro v
  induction v with
  | zero => intro f h; omega
  | succ v ih =>
    intro f _ hv hf
    have hsub := dispatch_sub_cell_cellState (zeroingProgram n) (f + 2 * v + 1) input
      ((v + 1 : Nat) : Int) (n + 1) (by push_cast; omega) (by push_cast; omega)
    have hval : (((v + 1 : Nat) : Int) - 1) = (v : Int) := by push_cast; omega
    rw [hval] at hsub
    rw [show f + 2 * (v + 1) = f + 2 * v + 1 + 1 by omega,
      runFrom_next _ _ _ _ _ (zeroingProgram_sub n) hsub]
    have hs1 : ({ cellState input (v : Int) (n + 1) with
        i := ((cellState input (v : Int) (n + 1)).i + 1) % UINT_SIZE } : State)
        = cellState input v (n + 2) := by
      simp only [cellState, hm2]
    rw [hs1]
    rcases Nat.eq_zero_or_pos v with h0 | hpos
    · subst h0
      have hd : dispatch (zeroingProgram n) (f + 2 * 0) { type := END_LOOP }
          (cellState input ((0 : Nat) : Int) (n + 2))
          = Step.next (cellState input ((0 : Nat) : Int) (n + 2)) :=
        dispatch_end_loop_zero _ _ _ (cellState_ptr_lt _ _ _) rfl
      rw [runFrom_next _ _ _ _ _ (zeroingProgram_end n) hd]
      have hs2 : ({ cellState input ((0 : Nat) : Int) (n + 2) with
          i := ((cellState input ((0 : Nat) : Int) (n + 2)).i + 1) % UINT_SIZE } : State)
          = cellState input 0 (n + 3) := by
        simp only [cellState, hm3]; rfl
      obtain ⟨g, rfl⟩ : ∃ g, f = g + 1 := ⟨f - 1, by omega⟩
      rw [hs2, show g + 1 + 2 * 0 = g + 1 by omega, zeroingProgram_exit]
    · obtain ⟨g, hg⟩ : ∃ g, f + 2 * v = g + 3 := ⟨f + 2 * v - 3, by omega⟩
      have hscan := zeroingProgram_scanBackward n g hn
      have hd : dispatch (zeroingProgram n) (f + 2 * v) { type := END_LOOP }
          (cellState input (v : Int) (n + 2))
          = Step.next { cellState input (v : Int) (n + 2) with i := n } := by
        have hnz : (v : Int) ≠ 0 := by omega
        rw [hg]
        exact dispatch_end_loop_found _ _ _ n (cellState_ptr_lt _ _ _)
          (by rw [cellState_cell]; exact hnz) hscan
      rw [runFrom_next _ _ _ _ _ (zeroingProgram_end n) hd]
      have hs2 : ({ ({ cellState input (v : Int) (n + 2) with i := n } : State) with
          i := (({ cellState input (v : Int) (n + 2) with i := n } : State).i + 1) % UINT_SIZE }
            : State)
          = cellState input v (n + 1) := by
        simp only [cellState, hm1]
      rw [hs2]
      exact ih f hpos (by omega) hf

/-- Claim C17. For every `n` in `[0, 256]` the program of `n` tokens `use`
followed by `[ not ]`, run from the initial state with any input and with fuel
of at least `3 * n + 5`, terminates normally with every cell (cell 0 included)
holding 0, the cursor at 0 and no output. -/
theorem loop_zeroing (n : Nat) (hn : n ≤ 256) (input : List Int) (fuel : Nat)
    (hfuel : 3 * n + 5 ≤ fuel) :
    ∃ s, parse (zeroingProgram n) input fuel = some (Outcome.normal, s)
      ∧ (∀ k, s.memory k = 0) ∧ s.ptr = 0 ∧ s.output = [] := by
  refine ⟨cellState input 0 (n + 3), ?_, ?_, rfl, rfl⟩
  · obtain ⟨f, rfl⟩ : ∃ f, fuel = f + n := ⟨fuel - n, by omega⟩
    have hblock := runFrom_add_cell_block (zeroingProgram n) input n f 0 0
      (fun k hk => by rw [Nat.zero_add]; exact zeroingProgram_add n k hk)
      (Int.le_refl 0) (by omega) (by unfold UINT_SIZE; omega)
    rw [Nat.zero_add, Int.zero_add] at hblock
    unfold parse
    rw [initState_eq_cellState, hblock]
    have hm1 : (n + 1) % UINT_SIZE = n + 1 := by unfold UINT_SIZE; omega
    have hm3 : (n + 2 + 1) % UINT_SIZE = n + 3 := by unfold UINT_SIZE; omega
    rcases Nat.eq_zero_or_pos n with h0 | hpos
    · obtain ⟨g, rfl⟩ : ∃ g, f = g + 3 + 1 := ⟨f - 4, by omega⟩
      have hscan := zeroingProgram_scanForward n g hn
      have hd : dispatch (zeroingProgram n) (g + 3) { type := BEG_LOOP }
          (cellState input (n : Int) n)
          = Step.next { cellState input (n : Int) n with i := n + 2 } := by
        have hz : (n : Int) = 0 := by omega
        exact dispatch_beg_loop_found _ _ _ (n + 2) (cellState_ptr_lt _ _ _)
          (by rw [cellState_cell]; exact hz) hscan
      rw [runFrom_next _ _ _ _ _ (zeroingProgram_beg n) hd]
      have hs : ({ ({ cellState input (n : Int) n with i := n + 2 } : State) with
          i := (({ cellState input (n : Int) n with i := n + 2 } : State).i + 1) % UINT_SIZE }
            : State)
          = cellState input 0 (n + 3) := by
        have hz : (n : Int) = 0 := by omega
        simp only [cellState, hm3, hz]
      rw [hs, show g + 3 = g + 2 + 1 by omega, zeroingProgram_exit]
    · obtain ⟨g, rfl⟩ : ∃ g, f = g + 2 * n + 1 := ⟨f - 2 * n - 1, by omega⟩
      have hd : dispatch (zeroingProgram n) (g + 2 * n) { type := BEG_LOOP }
          (cellState input (n : Int) n) = Step.next (cellState input (n : Int) n) := by
        have hnz : (n : Int) ≠ 0 := by omega
        exact dispatch_beg_loop_nonzero _ _ _ (cellState_ptr_lt _ _ _)
          (by rw [cellState_cell]; exact hnz)
      rw [runFrom_next _ _ _ _ _ (zeroingProgram_beg n) hd]
      have hs : ({ cellState input (n : Int) n with
          i := ((cellState input (n : Int) n).i + 1) % UINT_SIZE } : State)
          = cellState input n (n + 1) := by
        simp only [cellState, hm1]
      rw [hs]
      exact zeroingProgram_loop n hn input n g hpos hn (by omega)
  · intro k
    simp [cellState, setCell]

/-- Claim C17 (an instance). The program `use use use [ not ]`, run from the
initial state with fuel 14, terminates normally with every cell holding 0, the
cursor at 0 and no output. -/
theorem loop_zeroing_witness :
    ∃ s, parse [{ type := ADD_CELL }, { type := ADD_CELL }, { type := ADD_CELL },
          { type := BEG_LOOP }, { type := SUB_CELL }, { type := END_LOOP }] [] 14
        = some (Outcome.normal, s)
      ∧ (∀ k, s.memory k = 0) ∧ s.ptr = 0 ∧ s.output = [] :=
  loop_zeroing 3 (by decide) [] 14 (by decide)

/-! ## The counting program -/

theorem countingProgram_succ (n : Nat) :
    countingProgram (n + 1) = { type := ADD_CELL } :: countingProgram n := by
  simp [countingProgram, List.replicate_succ]

theorem countingProgram_ne_nil (n : Nat) : countingProgram n ≠ [] := by
  simp [countingProgram]

theorem render_cons_of_ne_nil (t : Token) (ts : List Token) (h : ts ≠ []) :
    render (t :: ts) = surface t.type ++ 32 :: render ts := by
  cases ts with
  | nil => exact absurd rfl h
  | cons t2 ts => rfl

theorem render_countingProgram_length (n : Nat) :
    (render (countingProgram n)).length = 4 * n + 3 := by
  induction n with
  | zero => rfl
  | succ n ih =>
    rw [countingProgram_succ, render_cons_of_ne_nil _ _ (countingProgram_ne_nil n)]
    simp only [List.length_append, List.length_cons, ih]
    have : (surface ADD_CELL).length = 3 := rfl
    simp only [this]
    omega

theorem countingProgram_valid (n : Nat) : ∀ t ∈ countingProgram n, t.type ≠ INVALID := by
  intro t ht
  simp only [countingProgram, List.mem_append, List.mem_replicate, List.mem_singleton] at ht
  rcases ht with ⟨_, rfl⟩ | rfl <;> decide

theorem countingProgram_length (n : Nat) : (countingProgram n).length = n + 1 := by
  simp [countingProgram]

/-- `OUTPUT` on cell 0 holding `v` in `[0, 255]` writes the byte `v`. -/
theorem dispatch_output_cellState (tokens : List Token) (fuel : Nat) (input : List Int)
    (n j : Nat) (hn : n ≤ 255) :
    dispatch tokens fuel { type := OUTPUT } (cellState input (n : Int) j)
      = Step.next { cellState input (n : Int) j with output := [n] } := by
  have hp : (cellState input (n : Int) j).ptr < MEMORY_SIZE := cellState_ptr_lt _ _ _
  have hb : (((n : Int) % 256).toNat) = n := by omega
  simp only [dispatch, reduceCtorEq, if_false, if_true, hp, cellState_cell, hb]
  rfl

/-- Claim C18. For every `n` in `[0, 255]`, with fuel of at least `4 * n + 5`:
the source made of `n` words `use` and the word `btw`, joined with single
spaces, lexes to `n` tokens `ADD_CELL` and `OUTPUT`, and that program, run from
the initial state with any input, terminates normally having written exactly
one byte, of value `n`, with cell 0 holding `n`. -/
theorem counting_output (uninit : TokenType) (n : Nat) (hn : n ≤ 255) (input : List Int)
    (fuel : Nat) (hfuel : 4 * n + 5 ≤ fuel) :
    lex uninit (render (countingProgram n)) fuel = some (countingProgram n)
    ∧ ∃ s, parse (countingProgram n) input fuel = some (Outcome.normal, s)
        ∧ s.output = [n] ∧ s.memory 0 = (n : Int) := by
  constructor
  · have hl := render_countingProgram_length n
    have := lexLoop_render uninit (render (countingProgram n))
      (by rw [hl]; unfold UINT_SIZE; omega) (countingProgram n) (countingProgram_valid n)
      [] [] fuel rfl (by rw [hl]; omega)
    rw [lex_eq_lexLoop]
    simpa using this
  · refine ⟨{ cellState input (n : Int) (n + 1) with output := [n] }, ?_, rfl, rfl⟩
    obtain ⟨f, rfl⟩ : ∃ f, fuel = f + 1 + 1 + n := ⟨fuel - n - 2, by omega⟩
    have hblock := runFrom_add_cell_block (countingProgram n) input n (f + 1 + 1) 0 0
      (fun k hk => by rw [Nat.zero_add]; exact get?_replicate_append_left n k _ _ hk)
      (Int.le_refl 0) (by omega) (by unfold UINT_SIZE; omega)
    rw [Nat.zero_add, Int.zero_add] at hblock
    have hm : (n + 1) % UINT_SIZE = n + 1 := by unfold UINT_SIZE; omega
    have hget : (countingProgram n).get? (cellState input (n : Int) n).i
        = some { type := OUTPUT } := get?_replicate_append_right n 0 _ _
    unfold parse
    rw [initState_eq_cellState, hblock,
      runFrom_next _ _ _ _ _ hget (dispatch_output_cellState _ _ input n n hn),
      runFrom_succ, countingProgram_length]
    simp only [cellState, hm, Nat.lt_irrefl, if_false]

/-- The rendering of the counting program for `n = 2`. -/
theorem render_countingProgram_two : render (countingProgram 2) = bytes "use use btw" := by
  decide

/-- Claim C18 (an instance). With `n = 65` and fuel 265 the output is the one
byte 65, the letter `A`. -/
theorem counting_output_witness :
    lex INVALID (render (countingProgram 65)) 265 = some (countingProgram 65)
    ∧ ∃ s, parse (countingProgram 65) [] 265 = some (Outcome.normal, s)
        ∧ s.output = [65] ∧ s.memory 0 = 65 :=
  counting_output INVALID 65 (by decide) [] 265 (by decide)

/-! ## Lexing a text cut at a space -/

theorem letters_append_cons (l r : List Nat) (x : Nat) (hx : ¬ isalpha x) :
    letters (l ++ x :: r) = letters l := by
  induction l with
  | nil => simp [letters, List.takeWhile_cons, hx]
  | cons a l ih =>
    unfold letters at ih ⊢
    by_cases ha : isalpha a
    · simp [List.takeWhile_cons, ha, ih]
    · simp [List.takeWhile_cons, ha]

theorem afterLetters_append_cons (l r : List Nat) (x : Nat) (hx : ¬ isalpha x) :
    afterLetters (l ++ x :: r) = afterLetters l ++ x :: r := by
  induction l with
  | nil => simp [afterLetters, List.dropWhile_cons, hx]
  | cons a l ih =>
    unfold afterLetters at ih ⊢
    by_cases ha : isalpha a
    · simp [List.dropWhile_cons, ha, ih]
    · simp [List.dropWhile_cons, ha]

theorem afterLetters_mem (l : List Nat) : ∀ c ∈ afterLetters l, c ∈ l := by
  intro c hc
  exact (List.dropWhile_sublist (fun c => decide (isalpha c))).subset hc

theorem afterLetters_length (l : List Nat) : (afterLetters l).length ≤ l.length :=
  (List.dropWhile_sublist (fun c => decide (isalpha c))).length_le

/-- A text of characters that all have a branch lexes to a token list. -/
theorem lexList_isSome (uninit : TokenType) :
    ∀ (n : Nat) (s : List Nat), s.length ≤ n → (∀ c ∈ s, hasBranch c) →
      ∃ ts, lexList uninit s = some ts := by
  intro n
  induction n with
  | zero =>
    intro s hn _
    obtain rfl : s = [] := List.length_eq_zero.1 (by omega)
    exact ⟨[], by rw [lexList]⟩
  | succ n ih =>
    intro s hn hs
    cases s with
    | nil => exact ⟨[], by rw [lexList]⟩
    | cons c cs =>
      simp only [List.length_cons] at hn
      have hcs : ∀ x ∈ cs, hasBranch x := fun x hx => hs x (List.mem_cons_of_mem _ hx)
      have hc := hs c (List.mem_cons_self _ _)
      rw [lexList_cons]
      by_cases hc0 : c = 0
      · exact ⟨[], by rw [if_pos hc0]⟩
      rw [if_neg hc0]
      by_cases hws : c = 32 ∨ c = 9 ∨ c = 10 ∨ c = 13
      · rw [if_pos hws]; exact ih cs (by omega) hcs
      rw [if_neg hws]
      by_cases hal : isalpha c
      · rw [if_pos hal]
        obtain ⟨ts, hts⟩ := ih (afterLetters cs)
          (by have := afterLetters_length cs; omega)
          (fun x hx => hcs x (afterLetters_mem cs x hx))
        exact ⟨_, by rw [hts]; rfl⟩
      rw [if_neg hal]
      by_cases h91 : c = 91
      · rw [if_pos h91]
        obtain ⟨ts, hts⟩ := ih cs (by omega) hcs
        exact ⟨_, by rw [hts]; rfl⟩
      rw [if_neg h91]
      by_cases h93 : c = 93
      · rw [if_pos h93]
        obtain ⟨ts, hts⟩ := ih cs (by omega) hcs
        exact ⟨_, by rw [hts]; rfl⟩
      · rcases hc with h | h | h | h
        · exact absurd h hws
        · exact absurd h hal
        · exact absurd h h91
        · exact absurd h h93

/-- The tokens of a text cut at a space are the tokens of the part before the
space followed by the tokens of the part after it. -/
theorem lexList_append_space (uninit : TokenType) (s2 : List Nat) :
    ∀ (n : Nat) (s1 : List Nat), s1.length ≤ n → (∀ c ∈ s1, hasBranch c) →
      lexList uninit (s1 ++ 32 :: s2)
        = (lexList uninit s1).bind (fun a => (lexList uninit s2).map (fun b => a ++ b)) := by
  have hnil : lexList uninit ([] ++ 32 :: s2)
      = (lexList uninit []).bind (fun a => (lexList uninit s2).map (fun b => a ++ b)) := by
    rw [List.nil_append, lexList_cons, if_neg (by decide), if_pos (Or.inl rfl)]
    conv_rhs => rw [lexList]
    cases lexList uninit s2 <;> simp
  intro n
  induction n with
  | zero =>
    intro s1 hn _
    obtain rfl : s1 = [] := List.length_eq_zero.1 (by omega)
    exact hnil
  | succ n ih =>
    intro s1 hn hs
    cases s1 with
    | nil => exact hnil
    | cons c cs =>
      simp only [List.length_cons] at hn
      have hcs : ∀ x ∈ cs, hasBranch x := fun x hx => hs x (List.mem_cons_of_mem _ hx)
      have hc := hs c (List.mem_cons_self _ _)
      rw [List.cons_append, lexList_cons, lexList_cons]
      by_cases hc0 : c = 0
      · rcases hc with h | h | h | h
        · omega
        · unfold isalpha at h; omega
        · omega
        · omega
      rw [if_neg hc0, if_neg hc0]
      by_cases hws : c = 32 ∨ c = 9 ∨ c = 10 ∨ c = 13
      · rw [if_pos hws, if_pos hws]; exact ih cs (by omega) hcs
      rw [if_neg hws, if_neg hws]
      by_cases hal : isalpha c
      · rw [if_pos hal, if_pos hal, letters_append_cons cs s2 32 (by decide),
          afterLetters_append_cons cs s2 32 (by decide),
          ih (afterLetters cs) (by have := afterLetters_length cs; omega)
            (fun x hx => hcs x (afterLetters_mem cs x hx))]
        cases lexList uninit (afterLetters cs) with
        | none => rfl
        | some a => cases lexList uninit s2 <;> rfl
      rw [if_neg hal, if_neg hal]
      by_cases h91 : c = 91
      · rw [if_pos h91, if_pos h91, ih cs (by omega) hcs]
        cases lexList uninit cs with
        | none => rfl
        | some a => cases lexList uninit s2 <;> rfl
      rw [if_neg h91, if_neg h91]
      by_cases h93 : c = 93
      · rw [if_pos h93, if_pos h93, ih cs (by omega) hcs]
        cases lexList uninit cs with
        | none => rfl
        | some a => cases lexList uninit s2 <;> rfl
      · rcases hc with h | h | h | h
        · exact absurd h hws
        · exact absurd h hal
        · exact absurd h h91
        · exact absurd h h93

/-- For a word that is none of the six keywords the keyword chain of
`makeToken` assigns nothing: the token gets the value of the uninitialised
`type`. -/
theorem keyword_unknown (uninit : TokenType) (w : List Nat)
    (h : w ≠ bytes "i" ∧ w ≠ bytes "btw" ∧ w ≠ bytes "not" ∧ w ≠ bytes "use"
      ∧ w ≠ bytes "notarch" ∧ w ≠ bytes "arch") :
    keyword uninit w = uninit := by
  obtain ⟨h1, h2, h3, h4, h5, h6⟩ := h
  simp only [keyword, h1, h2, h3, h4, h5, h6, if_false]

/-- A source that is one non-empty run of letters, none of the six keywords,
lexes to exactly one token, whose type is the value of the uninitialised
`type`. -/
theorem lex_unknown_word (uninit : TokenType) (w : List Nat) (hne : w ≠ [])
    (hw : ∀ c ∈ w, isalpha c)
    (hk : w ≠ bytes "i" ∧ w ≠ bytes "btw" ∧ w ≠ bytes "not" ∧ w ≠ bytes "use"
      ∧ w ≠ bytes "notarch" ∧ w ≠ bytes "arch")
    (hlen : w.length < UINT_SIZE) (fuel : Nat) (hfuel : w.length + 2 ≤ fuel) :
    lex uninit w fuel = some [{ type := uninit }] := by
  obtain ⟨f, rfl⟩ : ∃ f, fuel = f + w.length + 1 + 1 := ⟨fuel - w.length - 2, by omega⟩
  have h := lexLoop_word uninit w hlen [] w [] f [] (by simp) hne hw (by decide)
  rw [lex_eq_lexLoop]
  simp only [List.length_nil, Nat.zero_add, List.nil_append] at h
  rw [h, lexLoop_sentinel uninit w _ _ _ (Nat.le_refl _), keyword_unknown uninit w hk]

/-- A token whose type is none of the eight enumerators stops the executor
with `ERR: Invalid Token`. -/
theorem step_invalid (tokens : List Token) (fuel : Nat) (s : State)
    (hget : tokens.get? s.i = some { type := INVALID }) :
    step tokens fuel s = Step.stop Outcome.errInvalidToken s := by
  have hd : dispatch tokens fuel { type := INVALID } s = Step.stop Outcome.errInvalidToken s := by
    simp only [dispatch, reduceCtorEq, if_false]
  simp only [step, hget, hd]

/-- Claim C16 (what the code does). The word `USE` lexes to one token whose
type is the value that the uninitialised local `type` of `makeToken` holds.
When that value is an enumerator, here `ADD_CELL`, the executor runs the token
as that opcode and the program ends normally with cell 0 holding 1, with no
invalid-token error; when it is none of the eight enumerators the executor
stops with the invalid-token error. -/
theorem unknown_word_runs_as_opcode :
    (lex ADD_CELL (bytes "USE") 5 = some [{ type := ADD_CELL }]
      ∧ ∃ s, parse [{ type := ADD_CELL }] [] 2 = some (Outcome.normal, s) ∧ s.memory 0 = 1)
    ∧ (lex INVALID (bytes "USE") 5 = some [{ type := INVALID }]
      ∧ ∃ s, parse [{ type := INVALID }] [] 2 = some (Outcome.errInvalidToken, s)) :=
  ⟨⟨by decide, ⟨_, rfl, by decide⟩⟩, ⟨by decide, ⟨_, rfl⟩⟩⟩

end IUseArchBtw
